import Mathlib

/-!
# Verification of the rnacounter prototype (`draft.py`)

Shallow embedding of the core of `draft.py`.  The source is Python 2, so:

* `/` on two ints is floor division (`Int.fdiv`);
* objects compare by identity: we model identity with a `uid` field and
  stipulate that distinct Python objects carry distinct `uid`s, so value
  equality of the embedded records coincides with Python identity;
* `list(set(xs))` deduplicates with an arbitrary iteration order; we fix
  first-occurrence order (`pydedup`) as the deterministic choice;
* Python `set`s of strings are modelled as duplicate-free `List String`
  in first-occurrence order, so all set claims are stated via membership;
* floats are modelled as rationals (`Rat`);
* raising (`assert`, `ValueError` from `list.remove`, `TypeError` from
  `reduce` on an empty list) is modelled with `Except PyError`.
-/

/-- First-occurrence deduplication: the deterministic model of Python's
`list(set(xs))` (whose real iteration order is arbitrary).  Written with an
accumulator of already-seen elements so that it reduces in the kernel. -/
def pydedupAux {α : Type} [DecidableEq α] (seen : List α) : List α → List α
  | [] => []
  | x :: xs => if x ∈ seen then pydedupAux seen xs else x :: pydedupAux (x :: seen) xs

/-- `list(set(l))`, keeping the first occurrence of each element. -/
def pydedup {α : Type} [DecidableEq α] (l : List α) : List α := pydedupAux [] l

/-- The errors the embedded code can raise: the `assert` in
`GenomicObject.__and__` (different chromosomes), `reduce` over an empty
list, and `list.remove` of a missing element. -/
inductive PyError
  | chromosomeMismatch
  | emptyReduce
  | valueNotInList
deriving DecidableEq

/-- `GenomicObject` and its subclass `Exon` of `draft.py`, flattened into a
single record (the only subclass behaviour the core uses is the
`transcripts` attribute and the `length = end - start` initialisation).
`stop` stands for the Python attribute `end` (a Lean keyword).  `uid`
models object identity and has no counterpart in the source: distinct
Python objects are embedded with distinct `uid`s. -/
structure Exon where
  id : String
  gene_id : String
  gene_name : String
  chrom : String
  start : Int
  stop : Int
  name : String
  score : Rat
  strand : Int
  length : Int
  multiplicity : Int
  transcripts : List String
  uid : Nat
deriving DecidableEq

instance : Inhabited Exon := ⟨⟨"", "", "", "", 0, 0, "", 0, 0, 0, 1, [], 0⟩⟩

/-- `Exon.__init__`: the `length` attribute is set to `end - start` at
construction time (and is *not* recomputed when `start`/`end` are later
overwritten — `cobble` mutates the boundaries without touching `length`). -/
def Exon.mkInit (id gene_id gene_name chrom : String) (start stop : Int)
    (name : String) (score : Rat) (strand : Int) (transcripts : List String)
    (uid : Nat) : Exon :=
  { id := id, gene_id := gene_id, gene_name := gene_name, chrom := chrom,
    start := start, stop := stop, name := name, score := score,
    strand := strand, length := stop - start, multiplicity := 1,
    transcripts := transcripts, uid := uid }

/-- `'|'.join(set([a, b]))`: a one- or two-element Python set joined by
`"|"`.  The set's iteration order is arbitrary; given order is the fixed
choice. -/
def pyJoinSet (a b : String) : String := if a = b then a else a ++ "|" ++ b

/-- Python set union `set(a) | set(b)`, in first-occurrence order. -/
def pyUnion (a b : List String) : List String := pydedup (a ++ b)

/-- The merge performed by `GenomicObject.__and__` together with
`Exon.__and__`, without the chromosome assertion (see `Exon.and`).
The ids are strings, so `selfid + otherid` is string concatenation (the
`isinstance(self.id, int)` branch is not taken).  Fields not passed to the
constructor keep the `__init__` defaults: `start = end = 0` (hence
`length = 0`), `score = 0`, and Python 2 `/` on the int strands is floor
division.  The fresh object's identity is never consulted again, so its
`uid` is fixed at `0`. -/
def combineU (a b : Exon) : Exon :=
  { id := a.id ++ b.id,
    gene_id := pyJoinSet a.gene_id b.gene_id,
    gene_name := pyJoinSet a.gene_name b.gene_name,
    chrom := a.chrom,
    start := 0, stop := 0,
    name := a.name ++ "|" ++ b.name,
    score := 0,
    strand := (a.strand + b.strand).fdiv 2,
    length := 0,
    multiplicity := a.multiplicity + b.multiplicity,
    transcripts := pyUnion a.transcripts b.transcripts,
    uid := 0 }

/-- `Exon.__and__`: `assert self.chrom == other.chrom` then merge. -/
def Exon.and (a b : Exon) : Except PyError Exon :=
  if a.chrom = b.chrom then .ok (combineU a b) else .error .chromosomeMismatch

/-- `intersect_exons_list(feats, multiple=False)`: deduplicate by identity
unless `multiple`, deep-copy a lone feature (the identity in this value
model), otherwise `reduce` the list with `&`.  `reduce` over an empty list
raises `TypeError`. -/
def intersect_exons_list (feats : List Exon) (multiple : Bool) : Except PyError Exon :=
  let feats' := if multiple then feats else pydedup feats
  match feats' with
  | [] => .error .emptyReduce
  | [e] => .ok e
  | e :: rest => rest.foldlM Exon.and e

/-- Pure mirror of `intersect_exons_list feats false`, total; it agrees with
the `Except` version whenever all features share a chromosome (see
`intersect_exons_list_ok`). -/
def intersectU (feats : List Exon) : Exon :=
  match pydedup feats with
  | [] => default
  | [e] => e
  | e :: rest => rest.foldl combineU e

/-- One entry of the `ends` list built by `cobble`: the Python tuple
`(pos, kind, exon)` where `kind = 1` marks a feature start and `kind = 0`
a feature end. -/
structure Ev where
  pos : Int
  kind : Nat
  exon : Exon
deriving DecidableEq

/-- The sort order of `ends.sort()`: Python tuples compare
lexicographically; the third component (the exon object itself) only
breaks ties between events with equal position and kind, in an order that
Python 2 derives from object addresses, i.e. arbitrarily.  We therefore
sort by `(pos, kind)` with a stable sort, which realises one of the orders
Python can produce. -/
def evLe (a b : Ev) : Prop := a.pos < b.pos ∨ (a.pos = b.pos ∧ a.kind ≤ b.kind)

instance : DecidableRel evLe := fun a b => by unfold evLe; infer_instance

instance : IsTotal Ev evLe := ⟨by intro a b; unfold evLe; omega⟩

instance : IsTrans Ev evLe := ⟨by intro a b c; unfold evLe; omega⟩

/-- The unsorted `ends` list of `cobble`:
`[(e.start,1,e) for e in exons] + [(e.end,0,e) for e in exons]`. -/
def cobbleEnds (exons : List Exon) : List Ev :=
  exons.map (fun e => ⟨e.start, 1, e⟩) ++ exons.map (fun e => ⟨e.stop, 0, e⟩)

/-- The update of `active_exons` when event `a` is processed: append the
exon on an open event, `list.remove` it on a close event (`remove` raises
`ValueError` when the element is absent). -/
def stepA (active : List Exon) (a : Ev) : Except PyError (List Exon) :=
  if a.kind = 1 then .ok (active ++ [a.exon])
  else if a.kind = 0 then
    if a.exon ∈ active then .ok (active.erase a.exon) else .error .valueNotInList
  else .ok active

/-- Pure mirror of `stepA` (`List.erase` is a no-op on a missing element). -/
def stepU (active : List Exon) (a : Ev) : List Exon :=
  if a.kind = 1 then active ++ [a.exon]
  else if a.kind = 0 then active.erase a.exon
  else active

/-- The main loop of `cobble` over the sorted event list: at index `i` the
pair `a = ends[i]`, `b = ends[i+1]` is examined; `a` updates the active
list, and when the active list is non-empty and the positions differ, the
intersection of the active exons is emitted with its boundaries clamped to
`[a.pos, b.pos)`.  The final event is never examined as `a`. -/
def sweepE (active : List Exon) : List Ev → Except PyError (List Exon)
  | a :: b :: rest =>
    match stepA active a with
    | .error err => .error err
    | .ok active' =>
      if active' = [] then sweepE active' (b :: rest)
      else if a.pos = b.pos then sweepE active' (b :: rest)
      else
        match intersect_exons_list active' false with
        | .error err => .error err
        | .ok e =>
          match sweepE active' (b :: rest) with
          | .error err => .error err
          | .ok tail => .ok ({ e with start := a.pos, stop := b.pos } :: tail)
  | _ => .ok []

/-- Pure mirror of `sweepE`. -/
def sweepU (active : List Exon) : List Ev → List Exon
  | a :: b :: rest =>
    let active' := stepU active a
    if active' = [] then sweepU active' (b :: rest)
    else if a.pos = b.pos then sweepU active' (b :: rest)
    else { intersectU active' with start := a.pos, stop := b.pos } ::
      sweepU active' (b :: rest)
  | _ => []

/-- `cobble(exons, multiple=False)`: split exons into non-overlapping
pieces.  Exactly as in the source, the `multiple` parameter is accepted
but never forwarded to `intersect_exons_list` (which is always called with
its default `multiple=False`), so it has no effect. -/
def cobble (exons : List Exon) (multiple : Bool) : Except PyError (List Exon) :=
  let _ := multiple
  sweepE [] (List.insertionSort evLe (cobbleEnds exons))

/-- Lines 202-206 of `process_chunk`: `t2e[t]`.  The source loop
`for t in p.transcripts: t2e.setdefault(t,[]).append(p.id)` runs over the
piece's transcripts *list*, so the piece id is appended once per
*occurrence* of `t` in that list: a duplicated entry contributes the id
twice.  A piece is retained when its *attribute* `length` is at least 100
(`if p.length < 100: continue`); for merged pieces this attribute is the
stale constructor default `0`, not `end - start`, because `cobble`
overwrites the boundaries without updating `length`.  The Python dict is
modelled as a function (missing key = `[]`). -/
def t2e (pieces : List Exon) (t : String) : List String :=
  (pieces.filter (fun p => decide (100 ≤ p.length))).flatMap
    (fun p => (p.transcripts.filter (fun s => decide (s = t))).map (fun _ => p.id))

/-- `tuple(sorted(t2e[t]))`, used only for equality tests when grouping
transcripts (lines 207-210): two sorted tuples are equal exactly when the
underlying multisets are, so the signature is modelled as a multiset. -/
def sig (pieces : List Exon) (t : String) : Multiset String := ↑(t2e pieces t)

/-- The key list of `t2e` in insertion order: transcripts in order of first
appearance over the retained pieces (Python's per-piece set iteration order
is arbitrary; the stored list order is the deterministic choice). -/
def txDomain (pieces : List Exon) : List String :=
  pydedup ((pieces.filter (fun p => decide (100 ≤ p.length))).flatMap
    (fun p => p.transcripts))

/-- `tx_replace.get(t, t)` (lines 211-215): the representative of `t` is
the first transcript, in `t2e` key order, whose signature equals `t`'s
(`tlist[0]` of `t`'s group); a transcript contained in no retained piece is
left unchanged. -/
def rep (pieces : List Exon) (t : String) : String :=
  ((txDomain pieces).filter
    (fun u => decide (sig pieces u = sig pieces t))).head?.getD t

/-- Lines 214-217: every piece's transcript membership is rewritten through
the representative map and deduplicated (`list(set(...))`). -/
def collapseTx (pieces : List Exon) : List Exon :=
  pieces.map (fun p => { p with transcripts := pydedup (p.transcripts.map (rep pieces)) })

/-- Lines 212-218: the accumulated `transcripts` set after the rewrite —
every transcript some rewritten piece mentions. -/
def canonicalTxs (pieces : List Exon) : List String :=
  pydedup ((collapseTx pieces).flatMap (fun p => p.transcripts))

/-- Lines 221-225: `tp_map[t]`, the names of ALL pieces — with no length
filter — whose transcript list contains `t`, in piece order. -/
def tp_map (pieces : List Exon) (t : String) : List String :=
  (pieces.filter (fun p => decide (t ∈ p.transcripts))).map (fun p => p.name)

/-- One entry of `Avals` (line 240), row `p`, column `t`:
`float(t in p.transcripts) / len(tp_map[t])`, as a rational. -/
def Aval (pieces : List Exon) (t : String) (p : Exon) : Rat :=
  (if t ∈ p.transcripts then 1 else 0) / ((tp_map pieces t).length : Rat)

/-- The sum of transcript `t`'s matrix column (the rows are the pieces). -/
def colSum (pieces : List Exon) (t : String) : Rat :=
  (pieces.map (Aval pieces t)).sum

/-- Modelled from the claim wording of C4 (spec §3/§8): the number of
*retained* pieces — attribute `length` at least the threshold 100 — whose
transcript set contains `t`.  This follows the spec's words, to be compared
with the denominator the code actually uses (`(tp_map pieces t).length`). -/
def specRetainedCount (pieces : List Exon) (t : String) : Nat :=
  (pieces.filter
    (fun p => decide (100 ≤ p.length) && decide (t ∈ p.transcripts))).length

/-- An aligned read as the `Counter` callbacks see it: the reverse-strand
flag and the tag list, from which only the integer `NH` tag is read. -/
structure AlignedRead where
  is_reverse : Bool
  tags : List (String × Int)
deriving DecidableEq

/-- `[1.0/t[1] for t in alignment.tags if t[0]=='NH'] + [1]`, indexed at 0:
the weight `1/NH` from the first NH tag, else `1`.  (On `NH = 0` Python
raises `ZeroDivisionError` while `Rat` gives `1/0 = 0`; real NH tags are
positive and no claim touches that corner.) -/
def nhWeight (a : AlignedRead) : Rat :=
  match (a.tags.filter (fun t => decide (t.1 = "NH"))).head? with
  | some t => 1 / (t.2 : Rat)
  | none => 1

/-- The state set up by `Counter.__init__`: weighted count `n`, raw count
`n_raw`, wrong-strand count `n_ws`, the expected strand, and the flag
recording which callback (`count` or `count_stranded`) was installed. -/
structure Counter where
  n : Rat
  n_raw : Int
  n_ws : Rat
  strand : Int
  stranded : Bool
deriving DecidableEq

/-- `Counter(stranded)`: all counts zero, strand `0`. -/
def Counter.init (stranded : Bool) : Counter :=
  { n := 0, n_raw := 0, n_ws := 0, strand := 0, stranded := stranded }

/-- `Counter.count` (unstranded): `n += NH[0]; n_raw += 1`. -/
def Counter.count (c : Counter) (a : AlignedRead) : Counter :=
  { c with n := c.n + nhWeight a, n_raw := c.n_raw + 1 }

/-- `Counter.count_stranded`: a read whose orientation matches the expected
strand adds its NH weight to `n`; any other read adds it to `n_ws`.  The
raw counter `n_raw` is not touched in either branch. -/
def Counter.count_stranded (c : Counter) (a : AlignedRead) : Counter :=
  if (c.strand = 1 ∧ a.is_reverse = false) ∨ (c.strand = -1 ∧ a.is_reverse = true) then
    { c with n := c.n + nhWeight a }
  else
    { c with n_ws := c.n_ws + nhWeight a }

/-- `Counter.__call__` dispatches to the callback chosen at `__init__`. -/
def Counter.call (c : Counter) (a : AlignedRead) : Counter :=
  if c.stranded then c.count_stranded a else c.count a

instance {eps alpha : Type} [DecidableEq eps] [DecidableEq alpha] :
    DecidableEq (Except eps alpha) := fun x y =>
  match x, y with
  | .error a, .error b =>
    if h : a = b then isTrue (by rw [h]) else isFalse (fun hc => h (by injection hc))
  | .ok a, .ok b =>
    if h : a = b then isTrue (by rw [h]) else isFalse (fun hc => h (by injection hc))
  | .error _, .ok _ => isFalse (fun hc => by injection hc)
  | .ok _, .error _ => isFalse (fun hc => by injection hc)

theorem mem_pydedupAux {α : Type} [DecidableEq α] (l : List α) (seen : List α) (x : α) :
    x ∈ pydedupAux seen l ↔ x ∈ l ∧ x ∉ seen := by
  induction l generalizing seen with
  | nil => simp [pydedupAux]
  | cons a t ih =>
    simp only [pydedupAux]
    by_cases ha : a ∈ seen
    · rw [if_pos ha, ih]
      simp only [List.mem_cons]
      by_cases hxa : x = a <;> by_cases hxs : x ∈ seen <;> simp_all
    · rw [if_neg ha]
      simp only [List.mem_cons, ih]
      by_cases hxa : x = a <;> by_cases hxs : x ∈ seen <;> simp_all

theorem mem_pydedup {α : Type} [DecidableEq α] (l : List α) (x : α) :
    x ∈ pydedup l ↔ x ∈ l := by
  simp [pydedup, mem_pydedupAux]

theorem pydedup_nodup {α : Type} [DecidableEq α] (l : List α) : (pydedup l).Nodup := by
  suffices h : ∀ seen : List α, (pydedupAux seen l).Nodup from h []
  induction l with
  | nil => intro seen; simp [pydedupAux]
  | cons a t ih =>
    intro seen
    simp only [pydedupAux]
    by_cases ha : a ∈ seen
    · rw [if_pos ha]; exact ih seen
    · rw [if_neg ha]
      refine List.nodup_cons.mpr ⟨?_, ih (a :: seen)⟩
      rw [mem_pydedupAux]
      rintro ⟨-, hmem⟩
      exact hmem (List.mem_cons_self a seen)

theorem pydedup_eq_self {α : Type} [DecidableEq α] (l : List α) (h : l.Nodup) :
    pydedup l = l := by
  suffices haux : ∀ seen : List α,
      l.Nodup → (∀ x ∈ l, x ∉ seen) → pydedupAux seen l = l from
    haux [] h (by simp)
  clear h
  induction l with
  | nil => intro seen _ _; rfl
  | cons a t ih =>
    intro seen hnd hseen
    obtain ⟨hat, hndt⟩ := List.nodup_cons.mp hnd
    simp only [pydedupAux, if_neg (hseen a (List.mem_cons_self a t))]
    congr 1
    refine ih (a :: seen) hndt ?_
    intro x hx
    simp only [List.mem_cons, not_or]
    exact ⟨fun hxa => hat (hxa ▸ hx), hseen x (List.mem_cons_of_mem a hx)⟩

theorem pydedup_ne_nil {α : Type} [DecidableEq α] (l : List α) (h : l ≠ []) :
    pydedup l ≠ [] := by
  obtain ⟨x, hx⟩ := List.exists_mem_of_ne_nil l h
  exact List.ne_nil_of_mem ((mem_pydedup l x).mpr hx)

theorem combineU_chrom (a b : Exon) : (combineU a b).chrom = a.chrom := rfl

theorem combineU_tx (a b : Exon) (t : String) :
    t ∈ (combineU a b).transcripts ↔ t ∈ a.transcripts ∨ t ∈ b.transcripts := by
  simp [combineU, pyUnion, mem_pydedup]

theorem foldl_combineU_chrom (l : List Exon) :
    ∀ acc : Exon, (l.foldl combineU acc).chrom = acc.chrom := by
  induction l with
  | nil => intro acc; rfl
  | cons y t ih => intro acc; rw [List.foldl_cons, ih, combineU_chrom]

theorem foldl_combineU_tx (l : List Exon) :
    ∀ acc : Exon, ∀ t : String,
      t ∈ (l.foldl combineU acc).transcripts ↔
        t ∈ acc.transcripts ∨ ∃ x ∈ l, t ∈ x.transcripts := by
  induction l with
  | nil => intro acc t; simp
  | cons y ys ih =>
    intro acc t
    rw [List.foldl_cons, ih, combineU_tx]
    simp only [List.mem_cons]
    constructor
    · rintro ((h | h) | ⟨x, hx, hxt⟩)
      · exact Or.inl h
      · exact Or.inr ⟨y, Or.inl rfl, h⟩
      · exact Or.inr ⟨x, Or.inr hx, hxt⟩
    · rintro (h | ⟨x, (rfl | hx), hxt⟩)
      · exact Or.inl (Or.inl h)
      · exact Or.inl (Or.inr hxt)
      · exact Or.inr ⟨x, hx, hxt⟩

theorem intersectU_chrom (feats : List Exon) (c : String)
    (hc : ∀ e ∈ feats, e.chrom = c) (hne : feats ≠ []) :
    (intersectU feats).chrom = c := by
  have hsub : ∀ e ∈ pydedup feats, e.chrom = c :=
    fun e he => hc e ((mem_pydedup feats e).mp he)
  have hdne := pydedup_ne_nil feats hne
  unfold intersectU
  cases hd : pydedup feats with
  | nil => exact absurd hd hdne
  | cons e rest =>
    cases rest with
    | nil => exact hsub e (hd ▸ List.mem_cons_self e [])
    | cons f rest' =>
      rw [foldl_combineU_chrom]
      exact hsub e (hd ▸ List.mem_cons_self e _)

theorem intersectU_tx (feats : List Exon) (hne : feats ≠ []) (t : String) :
    t ∈ (intersectU feats).transcripts ↔ ∃ e ∈ feats, t ∈ e.transcripts := by
  have hmem : ∀ x : Exon, x ∈ pydedup feats ↔ x ∈ feats := mem_pydedup feats
  have hdne := pydedup_ne_nil feats hne
  have key : (t ∈ (intersectU feats).transcripts ↔ ∃ e ∈ pydedup feats, t ∈ e.transcripts) := by
    unfold intersectU
    cases hd : pydedup feats with
    | nil => exact absurd hd hdne
    | cons e rest =>
      cases rest with
      | nil => simp
      | cons f rest' =>
        rw [foldl_combineU_tx]
        constructor
        · rintro (h | ⟨x, hx, hxt⟩)
          · exact ⟨e, List.mem_cons_self e _, h⟩
          · exact ⟨x, List.mem_cons_of_mem e hx, hxt⟩
        · rintro ⟨x, hx, hxt⟩
          rcases List.mem_cons.mp hx with rfl | hx2
          · exact Or.inl hxt
          · exact Or.inr ⟨x, hx2, hxt⟩
  rw [key]
  constructor
  · rintro ⟨e, he, het⟩; exact ⟨e, (hmem e).mp he, het⟩
  · rintro ⟨e, he, het⟩; exact ⟨e, (hmem e).mpr he, het⟩

theorem foldlM_and_ok (l : List Exon) (c : String) :
    ∀ acc : Exon, acc.chrom = c → (∀ e ∈ l, e.chrom = c) →
      l.foldlM Exon.and acc = .ok (l.foldl combineU acc) := by
  induction l with
  | nil => intro acc _ _; rfl
  | cons y t ih =>
    intro acc hacc hl
    have hy : y.chrom = c := hl y (List.mem_cons_self y t)
    have hstep : Exon.and acc y = .ok (combineU acc y) := by
      unfold Exon.and
      rw [if_pos (hacc.trans hy.symm)]
    rw [List.foldlM_cons, hstep]
    show (t.foldlM Exon.and (combineU acc y)) = _
    rw [ih (combineU acc y) (by rw [combineU_chrom]; exact hacc)
      (fun e he => hl e (List.mem_cons_of_mem y he)), List.foldl_cons]

theorem intersect_exons_list_ok (feats : List Exon) (c : String)
    (hc : ∀ e ∈ feats, e.chrom = c) (hne : feats ≠ []) :
    intersect_exons_list feats false = .ok (intersectU feats) := by
  have hsub : ∀ e ∈ pydedup feats, e.chrom = c :=
    fun e he => hc e ((mem_pydedup feats e).mp he)
  have hdne := pydedup_ne_nil feats hne
  have hred : intersect_exons_list feats false =
      (match pydedup feats with
       | [] => Except.error PyError.emptyReduce
       | [e] => Except.ok e
       | e :: rest => rest.foldlM Exon.and e) := rfl
  rw [hred]
  unfold intersectU
  cases hd : pydedup feats with
  | nil => exact absurd hd hdne
  | cons e rest =>
    cases rest with
    | nil => rfl
    | cons f rest' =>
      exact foldlM_and_ok (f :: rest') c e (hsub e (hd ▸ List.mem_cons_self e _))
        (fun x hx => hsub x (hd ▸ List.mem_cons_of_mem e hx))

/-- C8: `combine` (the `&` operation, `GenomicObject.__and__`) fails with
the chromosome-mismatch error exactly when the two features' chromosome
fields differ, and returns a merged feature exactly when they agree. -/
theorem and_chromosome_check (a b : Exon) :
    (Exon.and a b = .error .chromosomeMismatch ↔ a.chrom ≠ b.chrom) ∧
    ((∃ m, Exon.and a b = .ok m) ↔ a.chrom = b.chrom) := by
  unfold Exon.and
  by_cases h : a.chrom = b.chrom
  · rw [if_pos h]
    refine ⟨⟨(fun hc => nomatch hc), (fun hc => absurd h hc)⟩, ?_⟩
    exact ⟨fun _ => h, fun _ => ⟨combineU a b, rfl⟩⟩
  · rw [if_neg h]
    refine ⟨⟨fun _ => h, fun _ => rfl⟩, ?_⟩
    exact ⟨(fun hmm => nomatch hmm.choose_spec), (fun hc => absurd hc h)⟩

/-- A plus-strand exon on `chr1` (used as a concrete combiner input). -/
def c5a : Exon := Exon.mkInit "E1" "G1" "Gn" "chr1" 0 100 "E1" 0 1 ["T1"] 1

/-- An unknown-strand (`0`) exon on `chr1` overlapping `c5a`. -/
def c5b : Exon := Exon.mkInit "E2" "G1" "Gn" "chr1" 50 150 "E2" 0 0 ["T2"] 2

/-- C5 counterexample: combining the strands `+1` and `0` does *not* yield
the arithmetic mean `0.5`: Python 2's `/` on ints is floor division, so the
merged strand of `c5a` (strand `1`) and `c5b` (strand `0`) is `0`. -/
theorem combine_strand_mean_cex :
    Exon.and c5a c5b = .ok (combineU c5a c5b) ∧
      ¬ (((combineU c5a c5b).strand : Rat) =
          ((c5a.strand : Rat) + (c5b.strand : Rat)) / 2) := by
  constructor
  · decide
  · have h0 : (combineU c5a c5b).strand = 0 := by decide
    have h1 : c5a.strand = 1 := by decide
    have h2 : c5b.strand = 0 := by decide
    rw [h0, h1, h2]
    norm_num

/-- C5 amended: for two features on the same chromosome the merge returned
by `&` has strand equal to the *floor* of half the strand sum (Python 2
integer division), multiplicity equal to the sum of the multiplicities, and
transcripts equal (as a set) to the union of the two transcript sets. -/
theorem combine_merged_fields (a b : Exon) (h : a.chrom = b.chrom) :
    ∃ m, Exon.and a b = .ok m ∧
      m.strand = (a.strand + b.strand).fdiv 2 ∧
      m.multiplicity = a.multiplicity + b.multiplicity ∧
      (∀ t, t ∈ m.transcripts ↔ t ∈ a.transcripts ∨ t ∈ b.transcripts) := by
  refine ⟨combineU a b, ?_, rfl, rfl, combineU_tx a b⟩
  unfold Exon.and
  rw [if_pos h]

/-- Witness for `combine_merged_fields` at the concrete pair `c5a`, `c5b`. -/
theorem combine_merged_fields_witness :
    c5a.chrom = c5b.chrom ∧
      ∃ m, Exon.and c5a c5b = .ok m ∧
        m.strand = (c5a.strand + c5b.strand).fdiv 2 ∧
        m.multiplicity = c5a.multiplicity + c5b.multiplicity ∧
        (∀ t, t ∈ m.transcripts ↔ t ∈ c5a.transcripts ∨ t ∈ c5b.transcripts) :=
  ⟨by decide, combine_merged_fields c5a c5b (by decide)⟩

/-- A stranded counter configured to expect the forward strand. -/
def c7c : Counter := { n := 0, n_raw := 0, n_ws := 0, strand := 1, stranded := true }

/-- A forward-orientation read with no NH tag (weight 1). -/
def c7r : AlignedRead := { is_reverse := false, tags := [] }

/-- C7 counterexample: `count_stranded` on a matching read (counter expects
strand `+1`, read is forward) increments the weighted counter but does
*not* increment the raw counter `n_raw`, contradicting the claim that both
primary counters are incremented. -/
theorem count_stranded_raw_cex :
    (c7c.count_stranded c7r).n = c7c.n + nhWeight c7r ∧
      ¬ ((c7c.count_stranded c7r).n_raw = c7c.n_raw + 1) := by
  constructor
  · simp [Counter.count_stranded, c7c, c7r]
  · simp [Counter.count_stranded, c7c, c7r]

/-- C7 amended: in stranded mode, a read whose orientation matches the
configured strand adds its weight `1/NH` to `n` only, while a non-matching
read adds the weight to the wrong-strand counter `n_ws` only; the raw
counter `n_raw` is never touched by `count_stranded`, and `n`/`n_ws` are
unchanged in the respective opposite branches. -/
theorem count_stranded_updates (c : Counter) (a : AlignedRead) :
    (c.count_stranded a).n_raw = c.n_raw ∧
    (if (c.strand = 1 ∧ a.is_reverse = false) ∨ (c.strand = -1 ∧ a.is_reverse = true)
      then (c.count_stranded a).n = c.n + nhWeight a ∧ (c.count_stranded a).n_ws = c.n_ws
      else (c.count_stranded a).n = c.n ∧ (c.count_stranded a).n_ws = c.n_ws + nhWeight a) := by
  by_cases h : (c.strand = 1 ∧ a.is_reverse = false) ∨ (c.strand = -1 ∧ a.is_reverse = true)
  · simp [Counter.count_stranded, h]
  · simp [Counter.count_stranded, h]

theorem pydedup_idem {α : Type} [DecidableEq α] (l : List α) :
    pydedup (pydedup l) = pydedup l :=
  pydedup_eq_self (pydedup l) (pydedup_nodup l)

/-- C6 counterexample: with a duplicated reference to the same exon object,
the boundary-event list `ends` built by `cobble` (via `cobbleEnds`) is not
the event list of the identity-deduplicated input — the input is *not*
deduplicated before the event list is built (four events, not two). -/
theorem cobble_dedup_before_events_cex :
    cobbleEnds [c5a, c5a] ≠ cobbleEnds (pydedup [c5a, c5a]) ∧
      (cobbleEnds [c5a, c5a]).length = 4 := by
  constructor
  · decide
  · decide

/-- C6 amended: `cobble` builds one open and one close event per input
reference, duplicates included; deduplication by identity happens instead
inside `intersect_exons_list` every time a piece is synthesised — that
function is invariant under duplicate references — and on the concrete
duplicated input the emitted pieces coincide with the duplicate-free run. -/
theorem dedup_at_piece_synthesis :
    (∀ exons : List Exon, (cobbleEnds exons).length = 2 * exons.length) ∧
    (∀ feats : List Exon,
        intersect_exons_list feats false = intersect_exons_list (pydedup feats) false) ∧
    cobble [c5a, c5a] false = cobble [c5a] false := by
  refine ⟨?_, ?_, by decide⟩
  · intro exons
    simp [cobbleEnds]
    omega
  · intro feats
    have h : pydedup (pydedup feats) = pydedup feats := pydedup_idem feats
    have h1 : intersect_exons_list feats false =
        (match pydedup feats with
         | [] => Except.error PyError.emptyReduce
         | [e] => Except.ok e
         | e :: rest => rest.foldlM Exon.and e) := rfl
    have h2 : intersect_exons_list (pydedup feats) false =
        (match pydedup (pydedup feats) with
         | [] => Except.error PyError.emptyReduce
         | [e] => Except.ok e
         | e :: rest => rest.foldlM Exon.and e) := rfl
    rw [h1, h2, h]

theorem mem_canonicalTxs (pieces : List Exon) (t : String) :
    t ∈ canonicalTxs pieces ↔ ∃ p ∈ collapseTx pieces, t ∈ p.transcripts := by
  simp [canonicalTxs, mem_pydedup, List.mem_flatMap]

theorem tp_map_length (pieces : List Exon) (t : String) :
    (tp_map pieces t).length =
      (pieces.filter (fun p => decide (t ∈ p.transcripts))).length := by
  simp [tp_map]

theorem sum_map_div_exon (l : List Exon) (f : Exon → Rat) (c : Rat) :
    (l.map (fun x => f x / c)).sum = (l.map f).sum / c := by
  induction l with
  | nil => simp
  | cons a t ih => simp [ih, add_div]

theorem sum_indicator_exon (l : List Exon) (t : String) :
    (l.map (fun p => (if t ∈ p.transcripts then (1 : Rat) else 0))).sum =
      ((l.filter (fun p => decide (t ∈ p.transcripts))).length : Rat) := by
  induction l with
  | nil => simp
  | cons a s ih =>
    by_cases h : t ∈ a.transcripts
    · simp [h, ih, add_comm]
    · simp [h, ih]

/-- C3: every transcript in the post-collapse `transcripts` set belongs to
at least one piece, and the sum of its assignment-matrix column over all
pieces equals exactly `1` (floats are modelled as rationals, so the sum is
in particular within the tolerance `1e-9` of `1.0`). -/
theorem colSum_canonical_eq_one (pieces : List Exon) (t : String)
    (h : t ∈ canonicalTxs pieces) :
    colSum (collapseTx pieces) t = 1 := by
  obtain ⟨p, hp, hpt⟩ := (mem_canonicalTxs pieces t).mp h
  set P := collapseTx pieces with hP
  have hfil : p ∈ P.filter (fun q => decide (t ∈ q.transcripts)) :=
    List.mem_filter.mpr ⟨hp, by simpa using hpt⟩
  have hpos : 0 < (P.filter (fun q => decide (t ∈ q.transcripts))).length :=
    List.length_pos.mpr (List.ne_nil_of_mem hfil)
  have hne : (P.filter (fun q => decide (t ∈ q.transcripts))).length ≠ 0 := by omega
  have hk : ((P.filter (fun q => decide (t ∈ q.transcripts))).length : Rat) ≠ 0 := by
    exact_mod_cast hne
  unfold colSum Aval
  rw [sum_map_div_exon, sum_indicator_exon, tp_map_length]
  exact div_self hk

/-- A single long retained piece carrying transcript `T1` (C3 witness data). -/
def c3p : Exon := Exon.mkInit "P1" "G1" "Gn" "chr1" 0 150 "P1" 0 1 ["T1"] 3

/-- Witness for `colSum_canonical_eq_one` at the one-piece chunk `[c3p]`. -/
theorem colSum_canonical_eq_one_witness :
    "T1" ∈ canonicalTxs [c3p] ∧ colSum (collapseTx [c3p]) "T1" = 1 :=
  ⟨by decide, colSum_canonical_eq_one [c3p] "T1" (by decide)⟩

/-- Exon `[0,150)` on transcript `T1` (length 150, retained). -/
def c4a : Exon := Exon.mkInit "E1" "G1" "Gn" "chr1" 0 150 "E1" 0 1 ["T1"] 1

/-- Exon `[150,190)` on transcript `T1` (length 40, not retained). -/
def c4b : Exon := Exon.mkInit "E2" "G1" "Gn" "chr1" 150 190 "E2" 0 1 ["T1"] 2

/-- The pieces `cobble` produces for the chunk `[c4a, c4b]`: two disjoint
exons give two copied pieces, of lengths 150 and 40. -/
def c4ps : List Exon :=
  match cobble [c4a, c4b] false with
  | .ok ps => ps
  | .error _ => []

/-- C4 counterexample: in the chunk `[c4a, c4b]`, transcript `T1` has
exactly one *retained* piece (the 40bp piece is below the threshold), yet
its non-zero matrix entry is `1/2`, not `1/1`: the code divides by the
number of ALL pieces containing the transcript, not the retained ones. -/
theorem assignment_weight_cex :
    collapseTx c4ps = [c4a, c4b] ∧
    "T1" ∈ canonicalTxs c4ps ∧
    specRetainedCount (collapseTx c4ps) "T1" = 1 ∧
    Aval (collapseTx c4ps) "T1" c4a ≠
      1 / ((specRetainedCount (collapseTx c4ps) "T1" : Nat) : Rat) := by
  refine ⟨by decide, by decide, by decide, ?_⟩
  have hlen : (tp_map (collapseTx c4ps) "T1").length = 2 := by decide
  have hmem : "T1" ∈ c4a.transcripts := by decide
  have hk : specRetainedCount (collapseTx c4ps) "T1" = 1 := by decide
  unfold Aval
  rw [hlen, if_pos hmem, hk]
  norm_num

/-- C4 amended: a matrix entry is `0` exactly when the piece does not
contain the transcript, and every non-zero entry of column `t` equals
`1/k` where `k = len(tp_map[t])` counts ALL pieces containing `t`
(regardless of the length threshold). -/
theorem assignment_weights (pieces : List Exon) (t : String) (p : Exon)
    (hp : p ∈ pieces) :
    (Aval pieces t p = 0 ↔ t ∉ p.transcripts) ∧
    (t ∈ p.transcripts →
      Aval pieces t p = 1 / ((tp_map pieces t).length : Rat) ∧
      (tp_map pieces t).length =
        (pieces.filter (fun q => decide (t ∈ q.transcripts))).length) := by
  have hlen := tp_map_length pieces t
  by_cases h : t ∈ p.transcripts
  · have hfil : p ∈ pieces.filter (fun q => decide (t ∈ q.transcripts)) :=
      List.mem_filter.mpr ⟨hp, by simpa using h⟩
    have hpos : 0 < (pieces.filter (fun q => decide (t ∈ q.transcripts))).length :=
      List.length_pos.mpr (List.ne_nil_of_mem hfil)
    have hne0 : (pieces.filter (fun q => decide (t ∈ q.transcripts))).length ≠ 0 := by
      omega
    have hkne : ((tp_map pieces t).length : Rat) ≠ 0 := by
      rw [hlen]; exact_mod_cast hne0
    have hval : Aval pieces t p = 1 / ((tp_map pieces t).length : Rat) := by
      unfold Aval; rw [if_pos h]
    refine ⟨⟨fun h0 => ?_, fun hn => absurd h hn⟩, fun _ => ⟨hval, hlen⟩⟩
    rw [hval] at h0
    rcases div_eq_zero_iff.mp h0 with h1 | h1
    · exact absurd h1 one_ne_zero
    · exact absurd h1 hkne
  · refine ⟨⟨fun _ => h, fun _ => ?_⟩, fun hc => absurd hc h⟩
    unfold Aval
    rw [if_neg h]
    exact zero_div _

/-- Witness for `assignment_weights` at the concrete piece `c4a` of the
chunk `[c4a, c4b]`. -/
theorem assignment_weights_witness :
    c4a ∈ collapseTx c4ps ∧
    ((Aval (collapseTx c4ps) "T1" c4a = 0 ↔ "T1" ∉ c4a.transcripts) ∧
     ("T1" ∈ c4a.transcripts →
       Aval (collapseTx c4ps) "T1" c4a =
         1 / ((tp_map (collapseTx c4ps) "T1").length : Rat) ∧
       (tp_map (collapseTx c4ps) "T1").length =
         ((collapseTx c4ps).filter
           (fun q => decide ("T1" ∈ q.transcripts))).length)) :=
  ⟨by decide, assignment_weights (collapseTx c4ps) "T1" c4a (by decide)⟩

theorem head_mem_of_eq {α : Type} (l : List α) (x : α) (h : l.head? = some x) :
    x ∈ l := by
  cases l with
  | nil => simp at h
  | cons a t =>
    simp only [List.head?_cons, Option.some.injEq] at h
    exact h ▸ List.mem_cons_self a t

theorem mem_t2e (pieces : List Exon) (t s : String) :
    s ∈ t2e pieces t ↔ ∃ p ∈ pieces, 100 ≤ p.length ∧ t ∈ p.transcripts ∧ p.id = s := by
  simp only [t2e, List.mem_flatMap, List.mem_map]
  constructor
  · rintro ⟨p, hpf, u, hu, rfl⟩
    obtain ⟨hp, hlen⟩ := List.mem_filter.mp hpf
    rw [decide_eq_true_eq] at hlen
    obtain ⟨hu1, hu2⟩ := List.mem_filter.mp hu
    rw [decide_eq_true_eq] at hu2
    exact ⟨p, hp, hlen, hu2 ▸ hu1, rfl⟩
  · rintro ⟨p, hp, hlen, htx, rfl⟩
    refine ⟨p, List.mem_filter.mpr ⟨hp, by simpa using hlen⟩, t,
      List.mem_filter.mpr ⟨htx, by simp⟩, rfl⟩

theorem mem_txDomain (pieces : List Exon) (u : String) :
    u ∈ txDomain pieces ↔ ∃ p ∈ pieces, 100 ≤ p.length ∧ u ∈ p.transcripts := by
  simp only [txDomain, mem_pydedup, List.mem_flatMap, List.mem_filter, decide_eq_true_eq]
  constructor
  · rintro ⟨p, ⟨hp, hlen⟩, htx⟩
    exact ⟨p, hp, hlen, htx⟩
  · rintro ⟨p, hp, hlen, htx⟩
    exact ⟨p, ⟨hp, hlen⟩, htx⟩

theorem sig_ne_zero_of_mem_txDomain (pieces : List Exon) (u : String)
    (h : u ∈ txDomain pieces) : sig pieces u ≠ 0 := by
  obtain ⟨p, hp, hlen, htx⟩ := (mem_txDomain pieces u).mp h
  have hid : p.id ∈ t2e pieces u := (mem_t2e pieces u p.id).mpr ⟨p, hp, hlen, htx, rfl⟩
  intro hz
  rw [sig, Multiset.coe_eq_zero] at hz
  rw [hz] at hid
  exact absurd hid (List.not_mem_nil p.id)

theorem sig_eq_zero_of_not_mem_txDomain (pieces : List Exon) (u : String)
    (h : u ∉ txDomain pieces) : sig pieces u = 0 := by
  rw [sig, Multiset.coe_eq_zero]
  rw [List.eq_nil_iff_forall_not_mem]
  intro s hs
  obtain ⟨p, hp, hlen, htx, -⟩ := (mem_t2e pieces u s).mp hs
  exact h ((mem_txDomain pieces u).mpr ⟨p, hp, hlen, htx⟩)

theorem rep_of_not_mem_txDomain (pieces : List Exon) (u : String)
    (h : u ∉ txDomain pieces) : rep pieces u = u := by
  have hz := sig_eq_zero_of_not_mem_txDomain pieces u h
  have hfil : (txDomain pieces).filter
      (fun v => decide (sig pieces v = sig pieces u)) = [] := by
    rw [List.eq_nil_iff_forall_not_mem]
    intro v hv
    obtain ⟨hvdom, hvsig⟩ := List.mem_filter.mp hv
    rw [decide_eq_true_eq] at hvsig
    exact sig_ne_zero_of_mem_txDomain pieces v hvdom (hvsig.trans hz)
  rw [rep, hfil]
  rfl

theorem rep_head_spec (pieces : List Exon) (u : String) (h : u ∈ txDomain pieces) :
    rep pieces u ∈ txDomain pieces ∧ sig pieces (rep pieces u) = sig pieces u := by
  have hufil : u ∈ (txDomain pieces).filter
      (fun v => decide (sig pieces v = sig pieces u)) :=
    List.mem_filter.mpr ⟨h, by simp⟩
  cases hd : ((txDomain pieces).filter
      (fun v => decide (sig pieces v = sig pieces u))).head? with
  | none =>
    rw [List.head?_eq_none_iff] at hd
    rw [hd] at hufil
    exact absurd hufil (List.not_mem_nil u)
  | some w =>
    have hw := head_mem_of_eq _ w hd
    obtain ⟨hwdom, hwsig⟩ := List.mem_filter.mp hw
    rw [decide_eq_true_eq] at hwsig
    have hrep : rep pieces u = w := by rw [rep, hd]; rfl
    rw [hrep]
    exact ⟨hwdom, hwsig⟩

theorem rep_filter_eq (pieces : List Exon) (u t : String)
    (h : sig pieces u = sig pieces t) :
    (txDomain pieces).filter (fun v => decide (sig pieces v = sig pieces u)) =
      (txDomain pieces).filter (fun v => decide (sig pieces v = sig pieces t)) := by
  apply List.filter_congr
  intro v _
  rw [decide_eq_decide, h]

theorem rep_fixed_head (pieces : List Exon) (u : String) (hmem : u ∈ txDomain pieces)
    (hfix : rep pieces u = u) :
    ((txDomain pieces).filter
      (fun v => decide (sig pieces v = sig pieces u))).head? = some u := by
  have hufil : u ∈ (txDomain pieces).filter
      (fun v => decide (sig pieces v = sig pieces u)) :=
    List.mem_filter.mpr ⟨hmem, by simp⟩
  cases hd : ((txDomain pieces).filter
      (fun v => decide (sig pieces v = sig pieces u))).head? with
  | none =>
    rw [List.head?_eq_none_iff] at hd
    rw [hd] at hufil
    exact absurd hufil (List.not_mem_nil u)
  | some w =>
    have hrep : rep pieces u = w := by rw [rep, hd]; rfl
    rw [hrep] at hfix
    rw [hfix]

theorem rep_idem (pieces : List Exon) (u : String) :
    rep pieces (rep pieces u) = rep pieces u := by
  by_cases h : u ∈ txDomain pieces
  · obtain ⟨hdom, hsig⟩ := rep_head_spec pieces u h
    by_cases hfix : rep pieces u = u
    · rw [hfix]; exact hfix
    · have hufil : u ∈ (txDomain pieces).filter
          (fun v => decide (sig pieces v = sig pieces u)) :=
        List.mem_filter.mpr ⟨h, by simp⟩
      cases hd : ((txDomain pieces).filter
          (fun v => decide (sig pieces v = sig pieces u))).head? with
      | none =>
        rw [List.head?_eq_none_iff] at hd
        rw [hd] at hufil
        exact absurd hufil (List.not_mem_nil u)
      | some w =>
        have hrep : rep pieces u = w := by rw [rep, hd]; rfl
        rw [hrep]
        rw [rep, rep_filter_eq pieces w u (hrep ▸ hsig), hd]
        rfl
  · rw [rep_of_not_mem_txDomain pieces u h]
    exact rep_of_not_mem_txDomain pieces u h

theorem fixed_mem_iff (pieces : List Exon)
    (hid : ∀ p ∈ pieces, ∀ q ∈ pieces,
      100 ≤ p.length → 100 ≤ q.length → p.id = q.id → p = q)
    (p : Exon) (hp : p ∈ pieces) (hlen : 100 ≤ p.length) (t : String)
    (hfix : rep pieces t = t) :
    (∃ s ∈ p.transcripts, rep pieces s = t) ↔ t ∈ p.transcripts := by
  constructor
  · rintro ⟨s, hs, hrs⟩
    have hsig : sig pieces t = sig pieces s := by
      by_cases hsd : s ∈ txDomain pieces
      · have h1 := (rep_head_spec pieces s hsd).2
        rw [hrs] at h1
        exact h1
      · rw [rep_of_not_mem_txDomain pieces s hsd] at hrs
        rw [← hrs]
    have hpid : p.id ∈ t2e pieces s :=
      (mem_t2e pieces s p.id).mpr ⟨p, hp, hlen, hs, rfl⟩
    have hmem_t : p.id ∈ t2e pieces t := by
      have h1 : p.id ∈ sig pieces s := Multiset.mem_coe.mpr hpid
      have h2 : p.id ∈ sig pieces t := hsig ▸ h1
      exact Multiset.mem_coe.mp h2
    obtain ⟨q, hq, hqlen, hqt, hqid⟩ := (mem_t2e pieces t p.id).mp hmem_t
    have hqp : q = p := hid q hq p hp hqlen hlen hqid
    exact hqp ▸ hqt
  · intro ht
    exact ⟨t, ht, hfix⟩

theorem t2e_cons (x : Exon) (l : List Exon) (t : String) :
    t2e (x :: l) t =
      (if 100 ≤ x.length
        then (x.transcripts.filter (fun s => decide (s = t))).map (fun _ => x.id)
        else []) ++ t2e l t := by
  by_cases h1 : 100 ≤ x.length <;> simp [t2e, List.filter_cons, h1]

theorem filter_eq_singleton_of_nodup (tx : List String) (t : String)
    (h : tx.Nodup) :
    tx.filter (fun s => decide (s = t)) = if t ∈ tx then [t] else [] := by
  induction tx with
  | nil => simp
  | cons a l ih =>
    obtain ⟨hal, hln⟩ := List.nodup_cons.mp h
    by_cases hat : a = t
    · subst hat
      have h0 : l.filter (fun s => decide (s = a)) = [] := by
        rw [List.eq_nil_iff_forall_not_mem]
        intro u hu
        obtain ⟨hu1, hu2⟩ := List.mem_filter.mp hu
        rw [decide_eq_true_eq] at hu2
        exact hal (hu2 ▸ hu1)
      simp [List.filter_cons, h0]
    · have hn : (t ∈ a :: l) ↔ (t ∈ l) := by
        constructor
        · intro hc
          rcases List.mem_cons.mp hc with h2 | h2
          · exact absurd h2.symm hat
          · exact h2
        · exact List.mem_cons_of_mem a
      simp [List.filter_cons, hat, ih hln, hn]

theorem t2e_head_of_nodup (x : Exon) (t : String) (h : x.transcripts.Nodup) :
    (x.transcripts.filter (fun s => decide (s = t))).map (fun _ => x.id) =
      if t ∈ x.transcripts then [x.id] else [] := by
  rw [filter_eq_singleton_of_nodup x.transcripts t h]
  by_cases ht : t ∈ x.transcripts
  · rw [if_pos ht, if_pos ht]
    rfl
  · rw [if_neg ht, if_neg ht]
    rfl

theorem t2e_map_rw (pieces : List Exon) (f : String → String) (t : String)
    (hnd : ∀ p ∈ pieces, 100 ≤ p.length → p.transcripts.Nodup)
    (hpt : ∀ p ∈ pieces, 100 ≤ p.length →
      ((t ∈ pydedup (p.transcripts.map f)) ↔ t ∈ p.transcripts)) :
    t2e (pieces.map
      (fun p => { p with transcripts := pydedup (p.transcripts.map f) })) t =
      t2e pieces t := by
  induction pieces with
  | nil => rfl
  | cons p ps ih =>
    rw [List.map_cons, t2e_cons, t2e_cons,
      ih (fun q hq hql => hnd q (List.mem_cons_of_mem p hq) hql)
        (fun q hq hql => hpt q (List.mem_cons_of_mem p hq) hql)]
    congr 1
    by_cases hl : 100 ≤ p.length
    · rw [if_pos hl, if_pos hl]
      have hmemiff := hpt p (List.mem_cons_self p ps) hl
      rw [t2e_head_of_nodup _ t (by exact pydedup_nodup _),
        t2e_head_of_nodup p t (hnd p (List.mem_cons_self p ps) hl)]
      by_cases ht : t ∈ p.transcripts
      · rw [if_pos (by exact hmemiff.mpr ht), if_pos ht]
      · rw [if_neg (by exact fun hc => ht (hmemiff.mp hc)), if_neg ht]
    · rw [if_neg hl, if_neg hl]

theorem t2e_collapse (pieces : List Exon)
    (hid : ∀ p ∈ pieces, ∀ q ∈ pieces,
      100 ≤ p.length → 100 ≤ q.length → p.id = q.id → p = q)
    (hnd : ∀ p ∈ pieces, 100 ≤ p.length → p.transcripts.Nodup)
    (t : String) (hfix : rep pieces t = t) :
    t2e (collapseTx pieces) t = t2e pieces t := by
  unfold collapseTx
  apply t2e_map_rw pieces (rep pieces) t hnd
  intro p hp hlen
  rw [mem_pydedup, List.mem_map]
  constructor
  · rintro ⟨s, hs, hrs⟩
    exact (fixed_mem_iff pieces hid p hp hlen t hfix).mp ⟨s, hs, hrs⟩
  · intro ht
    exact ⟨t, ht, hfix⟩

theorem sig_collapse (pieces : List Exon)
    (hid : ∀ p ∈ pieces, ∀ q ∈ pieces,
      100 ≤ p.length → 100 ≤ q.length → p.id = q.id → p = q)
    (hnd : ∀ p ∈ pieces, 100 ≤ p.length → p.transcripts.Nodup)
    (t : String) (hfix : rep pieces t = t) :
    sig (collapseTx pieces) t = sig pieces t := by
  rw [sig, sig, t2e_collapse pieces hid hnd t hfix]

theorem txDomain_collapse_fixed (pieces : List Exon)
    (hid : ∀ p ∈ pieces, ∀ q ∈ pieces,
      100 ≤ p.length → 100 ≤ q.length → p.id = q.id → p = q)
    (u : String) (hu : u ∈ txDomain (collapseTx pieces)) :
    rep pieces u = u ∧ u ∈ txDomain pieces := by
  obtain ⟨p', hp', hlen', hu'⟩ := (mem_txDomain _ u).mp hu
  rw [collapseTx] at hp'
  obtain ⟨p, hp, rfl⟩ := List.mem_map.mp hp'
  have hlen : 100 ≤ p.length := hlen'
  obtain ⟨s, hs, hrs⟩ := List.mem_map.mp ((mem_pydedup _ u).mp hu')
  have hfix : rep pieces u = u := by rw [← hrs, rep_idem]
  have hut : u ∈ p.transcripts :=
    (fixed_mem_iff pieces hid p hp hlen u hfix).mp ⟨s, hs, hrs⟩
  exact ⟨hfix, (mem_txDomain pieces u).mpr ⟨p, hp, hlen, hut⟩⟩

theorem rep_collapse_fixed (pieces : List Exon)
    (hid : ∀ p ∈ pieces, ∀ q ∈ pieces,
      100 ≤ p.length → 100 ≤ q.length → p.id = q.id → p = q)
    (hnd : ∀ p ∈ pieces, 100 ≤ p.length → p.transcripts.Nodup)
    (p' : Exon) (hp' : p' ∈ collapseTx pieces) (t : String)
    (ht : t ∈ p'.transcripts) : rep (collapseTx pieces) t = t := by
  rw [collapseTx] at hp'
  obtain ⟨p, hp, rfl⟩ := List.mem_map.mp hp'
  obtain ⟨s, hs, hrs⟩ := List.mem_map.mp ((mem_pydedup _ t).mp ht)
  have hfix : rep pieces t = t := by rw [← hrs, rep_idem]
  by_cases hdom : t ∈ txDomain (collapseTx pieces)
  · obtain ⟨hudom, husig⟩ := rep_head_spec (collapseTx pieces) t hdom
    obtain ⟨hufix, hudomP⟩ :=
      txDomain_collapse_fixed pieces hid (rep (collapseTx pieces) t) hudom
    have htfixP : t ∈ txDomain pieces := (txDomain_collapse_fixed pieces hid t hdom).2
    have hsigs : sig pieces (rep (collapseTx pieces) t) = sig pieces t := by
      have h1 := husig
      rwa [sig_collapse pieces hid hnd _ hufix, sig_collapse pieces hid hnd t hfix] at h1
    have hu_head := rep_fixed_head pieces (rep (collapseTx pieces) t) hudomP hufix
    have ht_head := rep_fixed_head pieces t htfixP hfix
    rw [rep_filter_eq pieces (rep (collapseTx pieces) t) t hsigs, ht_head] at hu_head
    injection hu_head with h9
    exact h9.symm
  · exact rep_of_not_mem_txDomain (collapseTx pieces) t hdom

/-- C9 amended: the collapse pass is idempotent on every piece list whose
*retained* pieces (stale `length` attribute at least 100) carry pairwise
distinct identifiers and duplicate-free transcripts lists: a second
application leaves every piece — hence every piece's transcript
membership — unchanged.  (Both hypotheses are needed: see
`collapse_idempotent_cex` for the two failure modes.) -/
theorem collapse_idempotent (pieces : List Exon)
    (hid : ∀ p ∈ pieces, ∀ q ∈ pieces,
      100 ≤ p.length → 100 ≤ q.length → p.id = q.id → p = q)
    (hnd : ∀ p ∈ pieces, 100 ≤ p.length → p.transcripts.Nodup) :
    collapseTx (collapseTx pieces) = collapseTx pieces := by
  have key : ∀ p' ∈ collapseTx pieces,
      ({ p' with transcripts := pydedup (p'.transcripts.map (rep (collapseTx pieces))) } : Exon) = p' := by
    intro p' hp'
    have hmap : p'.transcripts.map (rep (collapseTx pieces)) = p'.transcripts := by
      have hfixall : ∀ t ∈ p'.transcripts, rep (collapseTx pieces) t = t :=
        fun t htt => rep_collapse_fixed pieces hid hnd p' hp' t htt
      calc p'.transcripts.map (rep (collapseTx pieces))
          = p'.transcripts.map id := List.map_congr_left hfixall
        _ = p'.transcripts := List.map_id _
    have hnodup : p'.transcripts.Nodup := by
      rw [collapseTx] at hp'
      obtain ⟨p, hp, rfl⟩ := List.mem_map.mp hp'
      exact pydedup_nodup _
    rw [hmap, pydedup_eq_self _ hnodup]
  show (collapseTx pieces).map
      (fun p => { p with transcripts := pydedup (p.transcripts.map (rep (collapseTx pieces))) }) = collapseTx pieces
  calc (collapseTx pieces).map
        (fun p => { p with transcripts := pydedup (p.transcripts.map (rep (collapseTx pieces))) })
      = (collapseTx pieces).map id := List.map_congr_left key
    _ = collapseTx pieces := List.map_id _

/-- A retained piece with id `A` on transcripts `t1`, `t3`. -/
def c9p : Exon :=
  { id := "A", gene_id := "G1", gene_name := "Gn", chrom := "c", start := 0,
    stop := 150, name := "A1", score := 0, strand := 1, length := 150,
    multiplicity := 1, transcripts := ["t1", "t3"], uid := 7 }

/-- A second retained piece with the *same* id `A` on transcripts `t2`, `t3`. -/
def c9q : Exon :=
  { c9p with start := 300, stop := 450, name := "A2", transcripts := ["t2", "t3"], uid := 8 }

/-- A single retained piece whose transcripts list repeats `t1`: the
per-transcript regrouping of `process_chunk` (lines 176-181) appends one
entry per same-id annotation row, so a duplicated row produces such a
list, and a lone-exon piece of `cobble` keeps it verbatim. -/
def c9r : Exon :=
  { id := "P", gene_id := "G1", gene_name := "Gn", chrom := "c", start := 0,
    stop := 150, name := "P1", score := 0, strand := 1, length := 150,
    multiplicity := 1, transcripts := ["t1", "t1", "t2"], uid := 9 }

/-- C9 counterexample: the collapse pass is not idempotent.  First, on the
piece set `[c9p, c9q]` — two retained pieces sharing the identifier `A`, as
`cobble` produces when two annotated exons carry the same `exon_id` — a
second application changes the transcript memberships (`{t1,t3}` collapses
further to `{t1}`).  Second, on `[c9r]` — a single retained piece whose
transcripts list repeats an entry — the duplicated occurrence gives `t1`
the signature `(P,P)` against `t2`'s `(P)`, so the first pass only
deduplicates the list, and the second pass then merges `t2` into `t1`. -/
theorem collapse_idempotent_cex :
    (100 ≤ c9p.length ∧ 100 ≤ c9q.length ∧ c9p.id = c9q.id ∧
      (collapseTx (collapseTx [c9p, c9q])).map (fun p => p.transcripts) ≠
        (collapseTx [c9p, c9q]).map (fun p => p.transcripts)) ∧
    (100 ≤ c9r.length ∧
      (collapseTx (collapseTx [c9r])).map (fun p => p.transcripts) ≠
        (collapseTx [c9r]).map (fun p => p.transcripts)) := by
  refine ⟨⟨by decide, by decide, by decide, by decide⟩, by decide, by decide⟩

/-- Witness for `collapse_idempotent` at the two-piece chunk `[c4a, c4b]`
(distinct ids `E1`, `E2`; duplicate-free transcript lists). -/
theorem collapse_idempotent_witness :
    (∀ p ∈ [c4a, c4b], ∀ q ∈ [c4a, c4b],
      100 ≤ p.length → 100 ≤ q.length → p.id = q.id → p = q) ∧
    (∀ p ∈ [c4a, c4b], 100 ≤ p.length → p.transcripts.Nodup) ∧
    collapseTx (collapseTx [c4a, c4b]) = collapseTx [c4a, c4b] :=
  ⟨by decide, by decide, collapse_idempotent [c4a, c4b] (by decide) (by decide)⟩

/-- The exons of the open events of an event list. -/
def opensOf (evs : List Ev) : List Exon :=
  (evs.filter (fun ev => decide (ev.kind = 1))).map (fun ev => ev.exon)

/-- The exons of the close events of an event list. -/
def closesOf (evs : List Ev) : List Exon :=
  (evs.filter (fun ev => decide (ev.kind = 0))).map (fun ev => ev.exon)

/-- Well-formedness of one event of chromosome `c`: the exon has positive
extent on `c`, and the event is either the close at the exon's end or the
open at the exon's start. -/
def EvWF (c : String) (ev : Ev) : Prop :=
  ev.exon.start < ev.exon.stop ∧ ev.exon.chrom = c ∧
    ((ev.kind = 0 ∧ ev.pos = ev.exon.stop) ∨ (ev.kind = 1 ∧ ev.pos = ev.exon.start))

/-- Position `x` is covered by a currently active exon that has not yet
closed, or by an exon whose open event is still pending. -/
def Covered (active : List Exon) (evs : List Ev) (x : Int) : Prop :=
  (∃ e ∈ active, x < e.stop) ∨
    (∃ ev ∈ evs, ev.kind = 1 ∧ ev.exon.start ≤ x ∧ x < ev.exon.stop)

/-- Transcript-aware version of `Covered`: `t` is carried by a relevant
exon covering `x`. -/
def TCov (active : List Exon) (evs : List Ev) (x : Int) (t : String) : Prop :=
  (∃ e ∈ active, x < e.stop ∧ t ∈ e.transcripts) ∨
    (∃ ev ∈ evs, ev.kind = 1 ∧ ev.exon.start ≤ x ∧ x < ev.exon.stop ∧
      t ∈ ev.exon.transcripts)

/-- The sweep invariant of `cobble`'s loop: the remaining events are
sorted and well-formed, the active exons are positive-extent features of
chromosome `c` whose starts precede the next event, and each exon's close
events balance its occurrences in `active` plus its pending opens. -/
structure SweepInv (c : String) (active : List Exon) (evs : List Ev) : Prop where
  sorted : List.Pairwise evLe evs
  wf : ∀ ev ∈ evs, EvWF c ev
  act_len : ∀ e ∈ active, e.start < e.stop
  act_chrom : ∀ e ∈ active, e.chrom = c
  count : ∀ x : Exon, (closesOf evs).count x = active.count x + (opensOf evs).count x
  act_start : ∀ e ∈ active, ∀ hd ∈ evs.head?, e.start ≤ hd.pos

theorem mem_opensOf (evs : List Ev) (e : Exon) :
    e ∈ opensOf evs ↔ ∃ ev ∈ evs, ev.kind = 1 ∧ ev.exon = e := by
  simp only [opensOf, List.mem_map, List.mem_filter, decide_eq_true_eq]
  constructor
  · rintro ⟨ev, ⟨hev, hk⟩, rfl⟩
    exact ⟨ev, hev, hk, rfl⟩
  · rintro ⟨ev, hev, hk, rfl⟩
    exact ⟨ev, ⟨hev, hk⟩, rfl⟩

theorem mem_closesOf (evs : List Ev) (e : Exon) :
    e ∈ closesOf evs ↔ ∃ ev ∈ evs, ev.kind = 0 ∧ ev.exon = e := by
  simp only [closesOf, List.mem_map, List.mem_filter, decide_eq_true_eq]
  constructor
  · rintro ⟨ev, ⟨hev, hk⟩, rfl⟩
    exact ⟨ev, hev, hk, rfl⟩
  · rintro ⟨ev, hev, hk, rfl⟩
    exact ⟨ev, ⟨hev, hk⟩, rfl⟩

theorem opensOf_cons (ev : Ev) (evs : List Ev) :
    opensOf (ev :: evs) =
      if ev.kind = 1 then ev.exon :: opensOf evs else opensOf evs := by
  by_cases h : ev.kind = 1 <;> simp [opensOf, List.filter_cons, h]

theorem closesOf_cons (ev : Ev) (evs : List Ev) :
    closesOf (ev :: evs) =
      if ev.kind = 0 then ev.exon :: closesOf evs else closesOf evs := by
  by_cases h : ev.kind = 0 <;> simp [closesOf, List.filter_cons, h]

theorem evLe_pos {a b : Ev} (h : evLe a b) : a.pos ≤ b.pos := by
  rcases h with h | ⟨h, -⟩
  · omega
  · omega

theorem pairwise_head_pos {hd : Ev} {t : List Ev} (hs : List.Pairwise evLe (hd :: t))
    (ev : Ev) (hev : ev ∈ hd :: t) : hd.pos ≤ ev.pos := by
  rcases List.mem_cons.mp hev with rfl | hev2
  · omega
  · exact evLe_pos ((List.pairwise_cons.mp hs).1 ev hev2)

/-- Every active exon's close event is still pending, so its end lies at or
beyond the next event's position. -/
theorem active_stop_ge {c : String} {active : List Exon} {evs : List Ev}
    (inv : SweepInv c active evs) (e : Exon) (he : e ∈ active)
    (hd : Ev) (hhd : evs.head? = some hd) : hd.pos ≤ e.stop := by
  have hc1 : 1 ≤ active.count e := List.one_le_count_iff.mpr he
  have hc2 : 1 ≤ (closesOf evs).count e := by
    have := inv.count e
    omega
  have hmem : e ∈ closesOf evs := List.one_le_count_iff.mp hc2
  obtain ⟨ev, hev, hk, rfl⟩ := (mem_closesOf evs e).mp hmem
  obtain ⟨-, -, hpos⟩ := inv.wf ev hev
  rcases hpos with ⟨-, hp⟩ | ⟨hk1, -⟩
  · rw [← hp]
    cases evs with
    | nil => simp at hhd
    | cons h0 t0 =>
      simp only [List.head?_cons, Option.some.injEq] at hhd
      exact hhd ▸ pairwise_head_pos inv.sorted ev hev
  · omega

theorem sweep_step (c : String) (active : List Exon) (a b : Ev) (rest : List Ev)
    (inv : SweepInv c active (a :: b :: rest)) :
    stepA active a = .ok (stepU active a) ∧
    SweepInv c (stepU active a) (b :: rest) ∧
    (∀ e ∈ stepU active a, e.start ≤ a.pos) ∧
    a.pos ≤ b.pos := by
  have hab : a.pos ≤ b.pos :=
    evLe_pos ((List.pairwise_cons.mp inv.sorted).1 b (List.mem_cons_self b rest))
  have hwa : EvWF c a := inv.wf a (List.mem_cons_self a (b :: rest))
  have sorted' : List.Pairwise evLe (b :: rest) := (List.pairwise_cons.mp inv.sorted).2
  have wf' : ∀ ev ∈ b :: rest, EvWF c ev :=
    fun ev h => inv.wf ev (List.mem_cons_of_mem a h)
  have hstarta : ∀ e ∈ active, e.start ≤ a.pos := by
    intro e he
    exact inv.act_start e he a rfl
  rcases hwa.2.2 with ⟨hk0, hpa⟩ | ⟨hk1, hpa⟩
  · -- a is a close event at the stop of its exon
    have hkne1 : ¬ a.kind = 1 := by omega
    have hmem : a.exon ∈ active := by
      by_contra hno
      have hcnt0 : active.count a.exon = 0 := List.count_eq_zero.mpr hno
      have hceq := inv.count a.exon
      rw [closesOf_cons, opensOf_cons, if_pos hk0, if_neg hkne1,
        List.count_cons_self] at hceq
      have hop : 1 ≤ (opensOf (b :: rest)).count a.exon := by omega
      obtain ⟨op, hopmem, hopk, hopx⟩ :=
        (mem_opensOf (b :: rest) a.exon).mp (List.one_le_count_iff.mp hop)
      have hople := pairwise_head_pos inv.sorted op (List.mem_cons_of_mem a hopmem)
      obtain ⟨hoplen, -, hoppos⟩ := inv.wf op (List.mem_cons_of_mem a hopmem)
      rcases hoppos with ⟨hk, -⟩ | ⟨-, hp⟩
      · omega
      · rw [hopx] at hoplen hp
        omega
    have hstepU : stepU active a = active.erase a.exon := by
      unfold stepU
      rw [if_neg hkne1, if_pos hk0]
    have hstepA : stepA active a = .ok (stepU active a) := by
      unfold stepA
      rw [if_neg hkne1, if_pos hk0, if_pos hmem, hstepU]
    have hsub : ∀ e ∈ stepU active a, e ∈ active := by
      intro e he
      rw [hstepU] at he
      exact List.mem_of_mem_erase he
    refine ⟨hstepA, ⟨sorted', wf', ?_, ?_, ?_, ?_⟩, ?_, hab⟩
    · exact fun e he => inv.act_len e (hsub e he)
    · exact fun e he => inv.act_chrom e (hsub e he)
    · intro x
      have hceq := inv.count x
      rw [closesOf_cons, opensOf_cons, if_pos hk0, if_neg hkne1] at hceq
      rw [hstepU]
      by_cases hx : x = a.exon
      · subst hx
        rw [List.count_cons_self] at hceq
        rw [List.count_erase_self]
        have h1 : 1 ≤ active.count a.exon := List.one_le_count_iff.mpr hmem
        omega
      · rw [List.count_cons_of_ne hx] at hceq
        rw [List.count_erase_of_ne hx]
        omega
    · intro e he hd hhd
      simp only [List.head?_cons, Option.mem_def, Option.some.injEq] at hhd
      subst hhd
      exact le_trans (hstarta e (hsub e he)) hab
    · exact fun e he => hstarta e (hsub e he)
  · -- a is an open event at the start of its exon
    have hkne0 : ¬ a.kind = 0 := by omega
    have hstepU : stepU active a = active ++ [a.exon] := by
      unfold stepU
      rw [if_pos hk1]
    have hstepA : stepA active a = .ok (stepU active a) := by
      unfold stepA
      rw [if_pos hk1, hstepU]
    have hcases : ∀ e ∈ stepU active a, e ∈ active ∨ e = a.exon := by
      intro e he
      rw [hstepU] at he
      rcases List.mem_append.mp he with h | h
      · exact Or.inl h
      · exact Or.inr (List.mem_singleton.mp h)
    refine ⟨hstepA, ⟨sorted', wf', ?_, ?_, ?_, ?_⟩, ?_, hab⟩
    · intro e he
      rcases hcases e he with h | rfl
      · exact inv.act_len e h
      · exact hwa.1
    · intro e he
      rcases hcases e he with h | rfl
      · exact inv.act_chrom e h
      · exact hwa.2.1
    · intro x
      have hceq := inv.count x
      rw [closesOf_cons, opensOf_cons, if_neg hkne0, if_pos hk1] at hceq
      rw [hstepU, List.count_append]
      by_cases hx : x = a.exon
      · subst hx
        rw [List.count_cons_self] at hceq
        have h1 : ([a.exon] : List Exon).count a.exon = 1 := by simp
        rw [h1]
        omega
      · rw [List.count_cons_of_ne hx] at hceq
        have h0 : ([a.exon] : List Exon).count x = 0 := by
          rw [List.count_eq_zero]
          simp [hx]
        omega
    · intro e he hd hhd
      simp only [List.head?_cons, Option.mem_def, Option.some.injEq] at hhd
      subst hhd
      rcases hcases e he with h | rfl
      · exact le_trans (hstarta e h) hab
      · omega
    · intro e he
      rcases hcases e he with h | rfl
      · exact hstarta e h
      · omega

theorem sweepU_nil (active : List Exon) : sweepU active [] = [] := rfl

theorem sweepU_single (active : List Exon) (a : Ev) : sweepU active [a] = [] := rfl

theorem sweepU_cons2 (active : List Exon) (a b : Ev) (rest : List Ev) :
    sweepU active (a :: b :: rest) =
      if stepU active a = [] then sweepU (stepU active a) (b :: rest)
      else if a.pos = b.pos then sweepU (stepU active a) (b :: rest)
      else { intersectU (stepU active a) with start := a.pos, stop := b.pos } ::
        sweepU (stepU active a) (b :: rest) := rfl

theorem sweep_chain (c : String) (evs : List Ev) :
    ∀ active : List Exon, SweepInv c active evs →
      (∀ p ∈ sweepU active evs,
        (∀ hd ∈ evs.head?, hd.pos ≤ p.start) ∧ p.start < p.stop ∧
        (∀ ev ∈ evs, ¬(p.start < ev.pos ∧ ev.pos < p.stop))) ∧
      List.Pairwise (fun p q => p.stop ≤ q.start) (sweepU active evs) := by
  induction evs with
  | nil =>
    intro active _
    exact ⟨fun p hp => absurd hp (List.not_mem_nil p), List.Pairwise.nil⟩
  | cons a tail ih =>
    cases tail with
    | nil =>
      intro active _
      refine ⟨fun p hp => absurd hp ?_, ?_⟩
      · rw [sweepU_single]
        exact List.not_mem_nil p
      · rw [sweepU_single]
        exact List.Pairwise.nil
    | cons b rest =>
      intro active inv
      obtain ⟨-, inv', hle_a, hab⟩ := sweep_step c active a b rest inv
      obtain ⟨tailP, tailPW⟩ := ih (stepU active a) inv'
      rw [sweepU_cons2]
      have htail : ∀ p ∈ sweepU (stepU active a) (b :: rest),
          (∀ hd ∈ (a :: b :: rest).head?, hd.pos ≤ p.start) ∧ p.start < p.stop ∧
          (∀ ev ∈ a :: b :: rest, ¬(p.start < ev.pos ∧ ev.pos < p.stop)) := by
        intro p hp
        obtain ⟨hhd, hplen, hnoin⟩ := tailP p hp
        have hbp : b.pos ≤ p.start := hhd b rfl
        refine ⟨?_, hplen, ?_⟩
        · intro hd hhd'
          simp only [List.head?_cons, Option.mem_def, Option.some.injEq] at hhd'
          subst hhd'
          omega
        · intro ev hev
          rcases List.mem_cons.mp hev with rfl | hev2
          · rintro ⟨hx1, hx2⟩
            omega
          · exact hnoin ev hev2
      by_cases h1 : stepU active a = []
      · rw [if_pos h1]
        exact ⟨htail, tailPW⟩
      · rw [if_neg h1]
        by_cases h2 : a.pos = b.pos
        · rw [if_pos h2]
          exact ⟨htail, tailPW⟩
        · rw [if_neg h2]
          have hapb : a.pos < b.pos := lt_of_le_of_ne hab h2
          constructor
          · intro p hp
            rcases List.mem_cons.mp hp with rfl | hp2
            · refine ⟨?_, hapb, ?_⟩
              · intro hd hhd'
                simp only [List.head?_cons, Option.mem_def, Option.some.injEq] at hhd'
                subst hhd'
                exact le_refl _
              · intro ev hev
                rcases List.mem_cons.mp hev with rfl | hev2
                · rintro ⟨hx1, hx2⟩
                  exact absurd hx1 (lt_irrefl _)
                · rintro ⟨hx1, hx2⟩
                  have hbev := pairwise_head_pos ((List.pairwise_cons.mp inv.sorted).2) ev hev2
                  revert hx2
                  show ¬ (ev.pos < b.pos)
                  omega
            · exact htail p hp2
          · refine List.Pairwise.cons ?_ tailPW
            intro q hq
            exact (tailP q hq).1 b rfl

theorem covered_step (c : String) (active : List Exon) (a : Ev) (evs' : List Ev)
    (inv : SweepInv c active (a :: evs')) (x : Int) (hx : a.pos ≤ x) :
    Covered (stepU active a) evs' x ↔ Covered active (a :: evs') x := by
  have hwa : EvWF c a := inv.wf a (List.mem_cons_self a evs')
  rcases hwa.2.2 with ⟨hk0, hpa⟩ | ⟨hk1, hpa⟩
  · have hkne1 : ¬ a.kind = 1 := by omega
    have hstepU : stepU active a = active.erase a.exon := by
      unfold stepU
      rw [if_neg hkne1, if_pos hk0]
    rw [hstepU]
    constructor
    · rintro (⟨e, he, hes⟩ | ⟨ev, hev, h1, h2, h3⟩)
      · exact Or.inl ⟨e, List.mem_of_mem_erase he, hes⟩
      · exact Or.inr ⟨ev, List.mem_cons_of_mem a hev, h1, h2, h3⟩
    · rintro (⟨e, he, hes⟩ | ⟨ev, hev, h1, h2, h3⟩)
      · have hne : e ≠ a.exon := by
          intro h
          rw [h] at hes
          omega
        exact Or.inl ⟨e, (List.mem_erase_of_ne hne).mpr he, hes⟩
      · rcases List.mem_cons.mp hev with rfl | hev2
        · omega
        · exact Or.inr ⟨ev, hev2, h1, h2, h3⟩
  · have hstepU : stepU active a = active ++ [a.exon] := by
      unfold stepU
      rw [if_pos hk1]
    rw [hstepU]
    constructor
    · rintro (⟨e, he, hes⟩ | ⟨ev, hev, h1, h2, h3⟩)
      · rcases List.mem_append.mp he with h | h
        · exact Or.inl ⟨e, h, hes⟩
        · have he' : e = a.exon := List.mem_singleton.mp h
          subst he'
          refine Or.inr ⟨a, List.mem_cons_self a evs', hk1, ?_, hes⟩
          omega
      · exact Or.inr ⟨ev, List.mem_cons_of_mem a hev, h1, h2, h3⟩
    · rintro (⟨e, he, hes⟩ | ⟨ev, hev, h1, h2, h3⟩)
      · exact Or.inl ⟨e, List.mem_append.mpr (Or.inl he), hes⟩
      · rcases List.mem_cons.mp hev with heva | hev2
        · rw [heva] at h3
          exact Or.inl ⟨a.exon,
            List.mem_append.mpr (Or.inr (List.mem_singleton.mpr rfl)), h3⟩
        · exact Or.inr ⟨ev, hev2, h1, h2, h3⟩

theorem tcov_step (c : String) (active : List Exon) (a : Ev) (evs' : List Ev)
    (inv : SweepInv c active (a :: evs')) (x : Int) (hx : a.pos ≤ x) (t : String) :
    TCov (stepU active a) evs' x t ↔ TCov active (a :: evs') x t := by
  have hwa : EvWF c a := inv.wf a (List.mem_cons_self a evs')
  rcases hwa.2.2 with ⟨hk0, hpa⟩ | ⟨hk1, hpa⟩
  · have hkne1 : ¬ a.kind = 1 := by omega
    have hstepU : stepU active a = active.erase a.exon := by
      unfold stepU
      rw [if_neg hkne1, if_pos hk0]
    rw [hstepU]
    constructor
    · rintro (⟨e, he, hes, het⟩ | ⟨ev, hev, h1, h2, h3, h4⟩)
      · exact Or.inl ⟨e, List.mem_of_mem_erase he, hes, het⟩
      · exact Or.inr ⟨ev, List.mem_cons_of_mem a hev, h1, h2, h3, h4⟩
    · rintro (⟨e, he, hes, het⟩ | ⟨ev, hev, h1, h2, h3, h4⟩)
      · have hne : e ≠ a.exon := by
          intro h
          rw [h] at hes
          omega
        exact Or.inl ⟨e, (List.mem_erase_of_ne hne).mpr he, hes, het⟩
      · rcases List.mem_cons.mp hev with rfl | hev2
        · omega
        · exact Or.inr ⟨ev, hev2, h1, h2, h3, h4⟩
  · have hstepU : stepU active a = active ++ [a.exon] := by
      unfold stepU
      rw [if_pos hk1]
    rw [hstepU]
    constructor
    · rintro (⟨e, he, hes, het⟩ | ⟨ev, hev, h1, h2, h3, h4⟩)
      · rcases List.mem_append.mp he with h | h
        · exact Or.inl ⟨e, h, hes, het⟩
        · have he' : e = a.exon := List.mem_singleton.mp h
          subst he'
          refine Or.inr ⟨a, List.mem_cons_self a evs', hk1, ?_, hes, het⟩
          omega
      · exact Or.inr ⟨ev, List.mem_cons_of_mem a hev, h1, h2, h3, h4⟩
    · rintro (⟨e, he, hes, het⟩ | ⟨ev, hev, h1, h2, h3, h4⟩)
      · exact Or.inl ⟨e, List.mem_append.mpr (Or.inl he), hes, het⟩
      · rcases List.mem_cons.mp hev with heva | hev2
        · rw [heva] at h3 h4
          exact Or.inl ⟨a.exon,
            List.mem_append.mpr (Or.inr (List.mem_singleton.mpr rfl)), h3, h4⟩
        · exact Or.inr ⟨ev, hev2, h1, h2, h3, h4⟩

theorem sweep_cover (c : String) (evs : List Ev) :
    ∀ active : List Exon, SweepInv c active evs → ∀ x : Int,
      (∀ hd ∈ evs.head?, hd.pos ≤ x) →
      ((∃ p ∈ sweepU active evs, p.start ≤ x ∧ x < p.stop) ↔ Covered active evs x) := by
  induction evs with
  | nil =>
    intro active inv x _
    have hact : active = [] := by
      rw [List.eq_nil_iff_forall_not_mem]
      intro e he
      have h1 : 1 ≤ active.count e := List.one_le_count_iff.mpr he
      have h2 := inv.count e
      simp [closesOf, opensOf] at h2
      omega
    subst hact
    constructor
    · rintro ⟨p, hp, -⟩
      exact absurd hp (List.not_mem_nil p)
    · rintro (⟨e, he, -⟩ | ⟨ev, hev, -⟩)
      · exact absurd he (List.not_mem_nil e)
      · exact absurd hev (List.not_mem_nil ev)
  | cons a tail ih =>
    cases tail with
    | nil =>
      intro active inv x hx
      have hax : a.pos ≤ x := hx a rfl
      have hwa : EvWF c a := inv.wf a (List.mem_cons_self a [])
      rw [sweepU_single]
      constructor
      · rintro ⟨p, hp, -⟩
        exact absurd hp (List.not_mem_nil p)
      · rintro (⟨e, he, hes⟩ | ⟨ev, hev, h1, h2, h3⟩)
        · have hc1 : 1 ≤ active.count e := List.one_le_count_iff.mpr he
          have hc2 := inv.count e
          have hcl : 1 ≤ (closesOf [a]).count e := by omega
          obtain ⟨ev, hev, hk0, hexe⟩ :=
            (mem_closesOf [a] e).mp (List.one_le_count_iff.mp hcl)
          have heva : ev = a := List.mem_singleton.mp hev
          rw [heva] at hk0 hexe
          rcases hwa.2.2 with ⟨-, hpa⟩ | ⟨hk1, -⟩
          · rw [← hexe] at hes
            omega
          · omega
        · have heva : ev = a := List.mem_singleton.mp hev
          rw [heva] at h1 h2 h3
          have hc2 := inv.count a.exon
          rw [closesOf_cons, opensOf_cons, if_neg (by omega : ¬ a.kind = 0),
            if_pos h1] at hc2
          simp only [closesOf, opensOf, List.filter_nil, List.map_nil] at hc2
          have h4 : ([] : List Exon).count a.exon = 0 := rfl
          have h5 : ((a.exon :: ([] : List Exon))).count a.exon = 1 := by simp
          omega
    | cons b rest =>
      intro active inv x hx
      have hax : a.pos ≤ x := hx a rfl
      obtain ⟨-, inv', hle_a, hab⟩ := sweep_step c active a b rest inv
      have hcov := covered_step c active a (b :: rest) inv x hax
      rw [sweepU_cons2]
      by_cases hxb : b.pos ≤ x
      · have IH := ih (stepU active a) inv' x ?later
        case later =>
          intro hd hhd
          simp only [List.head?_cons, Option.mem_def, Option.some.injEq] at hhd
          subst hhd
          exact hxb
        rw [← hcov, ← IH]
        by_cases h1 : stepU active a = []
        · rw [if_pos h1]
        · rw [if_neg h1]
          by_cases h2 : a.pos = b.pos
          · rw [if_pos h2]
          · rw [if_neg h2]
            constructor
            · rintro ⟨p, hp, hps, hpe⟩
              rcases List.mem_cons.mp hp with hppc | hp2
              · have hpstop : p.stop = b.pos := by rw [hppc]
                omega
              · exact ⟨p, hp2, hps, hpe⟩
            · rintro ⟨p, hp, hps, hpe⟩
              exact ⟨p, List.mem_cons_of_mem _ hp, hps, hpe⟩
      · push_neg at hxb
        obtain ⟨tailP, -⟩ := sweep_chain c (b :: rest) (stepU active a) inv'
        have htail_not : ∀ p ∈ sweepU (stepU active a) (b :: rest),
            ¬(p.start ≤ x ∧ x < p.stop) := by
          intro p hp
          have hbs := (tailP p hp).1 b rfl
          rintro ⟨h5, -⟩
          omega
        by_cases h1 : stepU active a = []
        · rw [if_pos h1]
          constructor
          · rintro ⟨p, hp, hps, hpe⟩
            exact absurd ⟨hps, hpe⟩ (htail_not p hp)
          · intro hcv
            exfalso
            rw [← hcov] at hcv
            rcases hcv with ⟨e, he, -⟩ | ⟨ev, hev, h1', h2', h3'⟩
            · rw [h1] at he
              exact absurd he (List.not_mem_nil e)
            · have hbev := pairwise_head_pos inv'.sorted ev hev
              obtain ⟨-, -, hpos⟩ := inv'.wf ev hev
              rcases hpos with ⟨hk, -⟩ | ⟨-, hp⟩
              · omega
              · omega
        · rw [if_neg h1]
          have h2 : ¬ a.pos = b.pos := by omega
          rw [if_neg h2]
          constructor
          · intro _
            rw [← hcov]
            obtain ⟨e, he⟩ := List.exists_mem_of_ne_nil _ h1
            have hstop := active_stop_ge inv' e he b rfl
            exact Or.inl ⟨e, he, by omega⟩
          · intro _
            refine ⟨{ intersectU (stepU active a) with start := a.pos, stop := b.pos },
              List.mem_cons_self _ _, ?_, ?_⟩
            · show a.pos ≤ x
              exact hax
            · show x < b.pos
              exact hxb

theorem sweep_tx (c : String) (evs : List Ev) :
    ∀ active : List Exon, SweepInv c active evs →
      ∀ p ∈ sweepU active evs, ∀ t : String,
        (t ∈ p.transcripts ↔ TCov active evs p.start t) := by
  induction evs with
  | nil =>
    intro active _ p hp
    exact absurd hp (List.not_mem_nil p)
  | cons a tail ih =>
    cases tail with
    | nil =>
      intro active _ p hp
      rw [sweepU_single] at hp
      exact absurd hp (List.not_mem_nil p)
    | cons b rest =>
      intro active inv p hp t
      obtain ⟨-, inv', hle_a, hab⟩ := sweep_step c active a b rest inv
      rw [sweepU_cons2] at hp
      by_cases h1 : stepU active a = []
      · rw [if_pos h1] at hp
        have hIH := ih (stepU active a) inv' p hp t
        obtain ⟨tailP, -⟩ := sweep_chain c (b :: rest) (stepU active a) inv'
        have hbs : b.pos ≤ p.start := (tailP p hp).1 b rfl
        have htr := tcov_step c active a (b :: rest) inv p.start (by omega) t
        rw [hIH, htr]
      · rw [if_neg h1] at hp
        by_cases h2 : a.pos = b.pos
        · rw [if_pos h2] at hp
          have hIH := ih (stepU active a) inv' p hp t
          obtain ⟨tailP, -⟩ := sweep_chain c (b :: rest) (stepU active a) inv'
          have hbs : b.pos ≤ p.start := (tailP p hp).1 b rfl
          have htr := tcov_step c active a (b :: rest) inv p.start (by omega) t
          rw [hIH, htr]
        · rw [if_neg h2] at hp
          have hapb : a.pos < b.pos := lt_of_le_of_ne hab h2
          rcases List.mem_cons.mp hp with hppc | hp2
          · subst hppc
            have htx : ({ intersectU (stepU active a) with
                start := a.pos, stop := b.pos } : Exon).transcripts =
                  (intersectU (stepU active a)).transcripts := rfl
            have hst : ({ intersectU (stepU active a) with
                start := a.pos, stop := b.pos } : Exon).start = a.pos := rfl
            rw [htx, hst, intersectU_tx (stepU active a) h1 t]
            constructor
            · rintro ⟨e, he, het⟩
              have hstop := active_stop_ge inv' e he b rfl
              have hwa : EvWF c a := inv.wf a (List.mem_cons_self a (b :: rest))
              rcases hwa.2.2 with ⟨hk0, hpa⟩ | ⟨hk1, hpa⟩
              · have hstep' : stepU active a = active.erase a.exon := by
                  unfold stepU
                  rw [if_neg (by omega : ¬ a.kind = 1), if_pos hk0]
                rw [hstep'] at he
                exact Or.inl ⟨e, List.mem_of_mem_erase he, by omega, het⟩
              · have hstep' : stepU active a = active ++ [a.exon] := by
                  unfold stepU
                  rw [if_pos hk1]
                rw [hstep'] at he
                rcases List.mem_append.mp he with h | h
                · exact Or.inl ⟨e, h, by omega, het⟩
                · have he' : e = a.exon := List.mem_singleton.mp h
                  subst he'
                  exact Or.inr ⟨a, List.mem_cons_self a _, hk1, by omega, by omega, het⟩
            · rintro (⟨e, he, hes, het⟩ | ⟨ev, hev, hk1', hs1, hs2, het⟩)
              · have hwa : EvWF c a := inv.wf a (List.mem_cons_self a (b :: rest))
                rcases hwa.2.2 with ⟨hk0, hpa⟩ | ⟨hk1, hpa⟩
                · have hstep' : stepU active a = active.erase a.exon := by
                    unfold stepU
                    rw [if_neg (by omega : ¬ a.kind = 1), if_pos hk0]
                  have hne : e ≠ a.exon := by
                    intro hh
                    rw [hh] at hes
                    omega
                  refine ⟨e, ?_, het⟩
                  rw [hstep']
                  exact (List.mem_erase_of_ne hne).mpr he
                · have hstep' : stepU active a = active ++ [a.exon] := by
                    unfold stepU
                    rw [if_pos hk1]
                  refine ⟨e, ?_, het⟩
                  rw [hstep']
                  exact List.mem_append.mpr (Or.inl he)
              · rcases List.mem_cons.mp hev with heva | hev2
                · rw [heva] at hk1' hs1 hs2 het
                  have hstep' : stepU active a = active ++ [a.exon] := by
                    unfold stepU
                    rw [if_pos hk1']
                  refine ⟨a.exon, ?_, het⟩
                  rw [hstep']
                  exact List.mem_append.mpr (Or.inr (List.mem_singleton.mpr rfl))
                · exfalso
                  have hbev := pairwise_head_pos inv'.sorted ev hev2
                  obtain ⟨-, -, hpos⟩ := inv'.wf ev hev2
                  rcases hpos with ⟨hk, -⟩ | ⟨-, hpp⟩
                  · omega
                  · omega
          · have hIH := ih (stepU active a) inv' p hp2 t
            obtain ⟨tailP, -⟩ := sweep_chain c (b :: rest) (stepU active a) inv'
            have hbs : b.pos ≤ p.start := (tailP p hp2).1 b rfl
            have htr := tcov_step c active a (b :: rest) inv p.start (by omega) t
            rw [hIH, htr]

theorem sweepE_cons2_ok (active : List Exon) (a b : Ev) (rest : List Ev)
    (h : stepA active a = .ok (stepU active a)) :
    sweepE active (a :: b :: rest) =
      (if stepU active a = [] then sweepE (stepU active a) (b :: rest)
       else if a.pos = b.pos then sweepE (stepU active a) (b :: rest)
       else
         match intersect_exons_list (stepU active a) false with
         | .error err => .error err
         | .ok e =>
           match sweepE (stepU active a) (b :: rest) with
           | .error err => .error err
           | .ok tail => .ok ({ e with start := a.pos, stop := b.pos } :: tail)) := by
  have h0 : sweepE active (a :: b :: rest) =
      (match stepA active a with
       | .error err => .error err
       | .ok active' =>
         if active' = [] then sweepE active' (b :: rest)
         else if a.pos = b.pos then sweepE active' (b :: rest)
         else
           match intersect_exons_list active' false with
           | .error err => .error err
           | .ok e =>
             match sweepE active' (b :: rest) with
             | .error err => .error err
             | .ok tail => .ok ({ e with start := a.pos, stop := b.pos } :: tail)) := rfl
  rw [h0, h]

theorem sweep_ok (c : String) (evs : List Ev) :
    ∀ active : List Exon, SweepInv c active evs →
      sweepE active evs = .ok (sweepU active evs) := by
  induction evs with
  | nil =>
    intro active _
    rfl
  | cons a tail ih =>
    cases tail with
    | nil =>
      intro active _
      rfl
    | cons b rest =>
      intro active inv
      obtain ⟨hstepA, inv', -, -⟩ := sweep_step c active a b rest inv
      rw [sweepE_cons2_ok active a b rest hstepA, sweepU_cons2]
      have hIH := ih (stepU active a) inv'
      by_cases h1 : stepU active a = []
      · rw [if_pos h1, if_pos h1]
        exact hIH
      · rw [if_neg h1, if_neg h1]
        by_cases h2 : a.pos = b.pos
        · rw [if_pos h2, if_pos h2]
          exact hIH
        · rw [if_neg h2, if_neg h2]
          rw [intersect_exons_list_ok (stepU active a) c inv'.act_chrom h1, hIH]

theorem opensOf_append (l1 l2 : List Ev) :
    opensOf (l1 ++ l2) = opensOf l1 ++ opensOf l2 := by
  simp [opensOf, List.filter_append]

theorem closesOf_append (l1 l2 : List Ev) :
    closesOf (l1 ++ l2) = closesOf l1 ++ closesOf l2 := by
  simp [closesOf, List.filter_append]

theorem opensOf_map_open (l : List Exon) :
    opensOf (l.map (fun e => (⟨e.start, 1, e⟩ : Ev))) = l := by
  induction l with
  | nil => rfl
  | cons e es ih =>
    simp only [List.map_cons, opensOf_cons] at ih ⊢
    simp [ih]

theorem opensOf_map_close (l : List Exon) :
    opensOf (l.map (fun e => (⟨e.stop, 0, e⟩ : Ev))) = [] := by
  induction l with
  | nil => rfl
  | cons e es ih =>
    simp only [List.map_cons, opensOf_cons] at ih ⊢
    simp [ih]

theorem closesOf_map_open (l : List Exon) :
    closesOf (l.map (fun e => (⟨e.start, 1, e⟩ : Ev))) = [] := by
  induction l with
  | nil => rfl
  | cons e es ih =>
    simp only [List.map_cons, closesOf_cons] at ih ⊢
    simp [ih]

theorem closesOf_map_close (l : List Exon) :
    closesOf (l.map (fun e => (⟨e.stop, 0, e⟩ : Ev))) = l := by
  induction l with
  | nil => rfl
  | cons e es ih =>
    simp only [List.map_cons, closesOf_cons] at ih ⊢
    simp [ih]

theorem opensOf_cobbleEnds (exons : List Exon) :
    opensOf (cobbleEnds exons) = exons := by
  rw [cobbleEnds, opensOf_append, opensOf_map_open, opensOf_map_close,
    List.append_nil]

theorem closesOf_cobbleEnds (exons : List Exon) :
    closesOf (cobbleEnds exons) = exons := by
  rw [cobbleEnds, closesOf_append, closesOf_map_open, closesOf_map_close,
    List.nil_append]

theorem cobble_initial_inv (exons : List Exon) (c : String)
    (hlen : ∀ e ∈ exons, e.start < e.stop) (hchrom : ∀ e ∈ exons, e.chrom = c) :
    SweepInv c [] (List.insertionSort evLe (cobbleEnds exons)) := by
  have hperm : List.Perm (List.insertionSort evLe (cobbleEnds exons))
      (cobbleEnds exons) := List.perm_insertionSort evLe _
  refine ⟨List.sorted_insertionSort evLe _, ?_, ?_, ?_, ?_, ?_⟩
  · intro ev hev
    have hev2 : ev ∈ cobbleEnds exons := hperm.mem_iff.mp hev
    rcases List.mem_append.mp hev2 with h | h
    · obtain ⟨e, he, rfl⟩ := List.mem_map.mp h
      exact ⟨hlen e he, hchrom e he, Or.inr ⟨rfl, rfl⟩⟩
    · obtain ⟨e, he, rfl⟩ := List.mem_map.mp h
      exact ⟨hlen e he, hchrom e he, Or.inl ⟨rfl, rfl⟩⟩
  · intro e he
    exact absurd he (List.not_mem_nil e)
  · intro e he
    exact absurd he (List.not_mem_nil e)
  · intro x
    have h1 : (closesOf (List.insertionSort evLe (cobbleEnds exons))).count x =
        (closesOf (cobbleEnds exons)).count x :=
      ((hperm.filter _).map _).count_eq x
    have h2 : (opensOf (List.insertionSort evLe (cobbleEnds exons))).count x =
        (opensOf (cobbleEnds exons)).count x :=
      ((hperm.filter _).map _).count_eq x
    rw [h1, h2, opensOf_cobbleEnds, closesOf_cobbleEnds, List.count_nil]
    omega
  · intro e he
    exact absurd he (List.not_mem_nil e)

/-- C1: on a chunk of positive-length features of one chromosome, `cobble`
succeeds and returns pieces that are non-empty half-open intervals, pairwise
non-overlapping and ordered by start position (each piece ends at or before
the next begins), and the genomic positions they cover are exactly the
positions covered by at least one input feature. -/
theorem cobble_partition (exons : List Exon) (c : String)
    (hlen : ∀ e ∈ exons, e.start < e.stop) (hchrom : ∀ e ∈ exons, e.chrom = c) :
    ∃ ps, cobble exons false = .ok ps ∧
      (∀ p ∈ ps, p.start < p.stop) ∧
      List.Pairwise (fun p q => p.stop ≤ q.start) ps ∧
      (∀ x : Int, (∃ p ∈ ps, p.start ≤ x ∧ x < p.stop) ↔
        (∃ e ∈ exons, e.start ≤ x ∧ x < e.stop)) := by
  set evs := List.insertionSort evLe (cobbleEnds exons) with hevsdef
  have inv : SweepInv c [] evs := cobble_initial_inv exons c hlen hchrom
  have hperm : List.Perm evs (cobbleEnds exons) := List.perm_insertionSort evLe _
  have hmemexon : ∀ ev ∈ evs, ev.exon ∈ exons := by
    intro ev hev
    have hev2 : ev ∈ cobbleEnds exons := hperm.mem_iff.mp hev
    rcases List.mem_append.mp hev2 with h | h
    · obtain ⟨e, he, rfl⟩ := List.mem_map.mp h
      exact he
    · obtain ⟨e, he, rfl⟩ := List.mem_map.mp h
      exact he
  refine ⟨sweepU [] evs, sweep_ok c evs [] inv, ?_, (sweep_chain c evs [] inv).2, ?_⟩
  · intro p hp
    exact ((sweep_chain c evs [] inv).1 p hp).2.1
  · intro x
    constructor
    · rintro ⟨p, hp, hps, hpe⟩
      have hhd : ∀ hd ∈ evs.head?, hd.pos ≤ x := by
        intro hd hhd
        have h5 := ((sweep_chain c evs [] inv).1 p hp).1 hd hhd
        omega
      have hcv := (sweep_cover c evs [] inv x hhd).mp ⟨p, hp, hps, hpe⟩
      rcases hcv with ⟨e, he, -⟩ | ⟨ev, hev, -, h1, h2⟩
      · exact absurd he (List.not_mem_nil e)
      · exact ⟨ev.exon, hmemexon ev hev, h1, h2⟩
    · rintro ⟨e, he, h1, h2⟩
      have hopenmem : (⟨e.start, 1, e⟩ : Ev) ∈ evs := by
        apply hperm.mem_iff.mpr
        exact List.mem_append.mpr (Or.inl (List.mem_map.mpr ⟨e, he, rfl⟩))
      have hhd : ∀ hd ∈ evs.head?, hd.pos ≤ x := by
        intro hd hhd
        cases hevs0 : evs with
        | nil =>
          rw [hevs0] at hopenmem
          exact absurd hopenmem (List.not_mem_nil _)
        | cons h0 t0 =>
          rw [hevs0] at hhd
          simp only [List.head?_cons, Option.mem_def, Option.some.injEq] at hhd
          subst hhd
          have hsorted := inv.sorted
          rw [hevs0] at hsorted
          have h9 := pairwise_head_pos hsorted ⟨e.start, 1, e⟩ (hevs0 ▸ hopenmem)
          have h10 : h0.pos ≤ e.start := h9
          omega
      exact (sweep_cover c evs [] inv x hhd).mpr
        (Or.inr ⟨⟨e.start, 1, e⟩, hopenmem, rfl, h1, h2⟩)

/-- Witness input: exon `[0,100)` carrying `T1` on `chr1`. -/
def w1a : Exon := Exon.mkInit "E1" "G1" "Gn" "chr1" 0 100 "E1" 0 1 ["T1"] 11

/-- Witness input: exon `[50,150)` carrying `T2` on `chr1`. -/
def w1b : Exon := Exon.mkInit "E2" "G1" "Gn" "chr1" 50 150 "E2" 0 1 ["T2"] 12

/-- Witness for `cobble_partition` at the two-exon chunk `[w1a, w1b]`. -/
theorem cobble_partition_witness :
    (∀ e ∈ [w1a, w1b], e.start < e.stop) ∧ (∀ e ∈ [w1a, w1b], e.chrom = "chr1") ∧
    (∃ ps, cobble [w1a, w1b] false = .ok ps ∧
      (∀ p ∈ ps, p.start < p.stop) ∧
      List.Pairwise (fun p q => p.stop ≤ q.start) ps ∧
      (∀ x : Int, (∃ p ∈ ps, p.start ≤ x ∧ x < p.stop) ↔
        (∃ e ∈ [w1a, w1b], e.start ≤ x ∧ x < e.stop))) :=
  ⟨by decide, by decide, cobble_partition [w1a, w1b] "chr1" (by decide) (by decide)⟩

/-- C2: on a chunk of positive-length features of one chromosome, every
piece `cobble` emits has as its transcript set exactly the union of the
transcript sets of the input features whose interval shares at least one
position with the piece. -/
theorem cobble_transcript_union (exons : List Exon) (c : String)
    (hlen : ∀ e ∈ exons, e.start < e.stop) (hchrom : ∀ e ∈ exons, e.chrom = c) :
    ∃ ps, cobble exons false = .ok ps ∧
      ∀ p ∈ ps, ∀ t : String,
        (t ∈ p.transcripts ↔
          ∃ e ∈ exons,
            (∃ x : Int, e.start ≤ x ∧ x < e.stop ∧ p.start ≤ x ∧ x < p.stop) ∧
            t ∈ e.transcripts) := by
  set evs := List.insertionSort evLe (cobbleEnds exons) with hevsdef
  have inv : SweepInv c [] evs := cobble_initial_inv exons c hlen hchrom
  have hperm : List.Perm evs (cobbleEnds exons) := List.perm_insertionSort evLe _
  have hmemexon : ∀ ev ∈ evs, ev.exon ∈ exons := by
    intro ev hev
    have hev2 : ev ∈ cobbleEnds exons := hperm.mem_iff.mp hev
    rcases List.mem_append.mp hev2 with h | h
    · obtain ⟨e, he, rfl⟩ := List.mem_map.mp h
      exact he
    · obtain ⟨e, he, rfl⟩ := List.mem_map.mp h
      exact he
  refine ⟨sweepU [] evs, sweep_ok c evs [] inv, ?_⟩
  intro p hp t
  have hchain := (sweep_chain c evs [] inv).1 p hp
  have htx := sweep_tx c evs [] inv p hp t
  rw [htx]
  constructor
  · rintro (⟨e, he, -⟩ | ⟨ev, hev, -, h1, h2, h3⟩)
    · exact absurd he (List.not_mem_nil e)
    · exact ⟨ev.exon, hmemexon ev hev,
        ⟨p.start, h1, h2, le_refl _, hchain.2.1⟩, h3⟩
  · rintro ⟨e, he, ⟨x, hex1, hex2, hpx1, hpx2⟩, het⟩
    have hopenmem : (⟨e.start, 1, e⟩ : Ev) ∈ evs := by
      apply hperm.mem_iff.mpr
      exact List.mem_append.mpr (Or.inl (List.mem_map.mpr ⟨e, he, rfl⟩))
    have hnoin : ¬ (p.start < e.start ∧ e.start < p.stop) :=
      hchain.2.2 ⟨e.start, 1, e⟩ hopenmem
    have hes : e.start ≤ p.start := by
      by_contra hcon
      push_neg at hcon
      exact hnoin ⟨hcon, by omega⟩
    exact Or.inr ⟨⟨e.start, 1, e⟩, hopenmem, rfl, hes,
      (show p.start < e.stop by omega), het⟩

/-- Witness for `cobble_transcript_union` at the two-exon chunk `[w1a, w1b]`. -/
theorem cobble_transcript_union_witness :
    (∀ e ∈ [w1a, w1b], e.start < e.stop) ∧ (∀ e ∈ [w1a, w1b], e.chrom = "chr1") ∧
    (∃ ps, cobble [w1a, w1b] false = .ok ps ∧
      ∀ p ∈ ps, ∀ t : String,
        (t ∈ p.transcripts ↔
          ∃ e ∈ [w1a, w1b],
            (∃ x : Int, e.start ≤ x ∧ x < e.stop ∧ p.start ≤ x ∧ x < p.stop) ∧
            t ∈ e.transcripts)) :=
  ⟨by decide, by decide, cobble_transcript_union [w1a, w1b] "chr1" (by decide) (by decide)⟩

theorem getD_set_ne {α : Type} (l : List α) (r i : Nat) (e d : α) (h : i ≠ r) :
    (l.set r e).getD i d = l.getD i d := by
  induction l generalizing r i with
  | nil => rfl
  | cons x xs ih =>
    cases r with
    | zero =>
      cases i with
      | zero => exact absurd rfl h
      | succ j => rfl
    | succ r' =>
      cases i with
      | zero => rfl
      | succ j => exact ih r' j (fun hh => h (by rw [hh]))

theorem getD_append_lt {α : Type} (l l2 : List α) (i : Nat) (d : α)
    (h : i < l.length) : (l ++ l2).getD i d = l.getD i d := by
  induction l generalizing i with
  | nil => exact absurd h (by simp)
  | cons x xs ih =>
    cases i with
    | zero => rfl
    | succ j => exact ih j (by simpa using h)

/-!
The frame claim about `cobble` (it never mutates its inputs) is about
Python object identity and in-place mutation, which the value-level model
erases.  We therefore give a second, store-passing embedding of the same
code in which objects live in a store (`List Exon`, a reference being an
index), `copy.deepcopy` and `self.__class__(...)` allocate fresh cells,
and `e.start = ...; e.end = ...` is a store update at the piece's
reference.  Replacing the deep copy by aliasing would falsify the frame
theorem below, so the theorem genuinely tracks the mutation discipline of
the source.
-/

/-- Store lookup (`List Exon` indexed by reference). -/
def stGet (st : List Exon) (r : Nat) : Exon := st.getD r default

/-- One `ends` entry of the store-level `cobble`: position, kind, and the
*reference* of the exon (the Python tuple holds the object itself). -/
structure EvR where
  pos : Int
  kind : Nat
  ref : Nat
deriving DecidableEq

/-- Sort order of the store-level event list (same keys as `evLe`). -/
def evRLe (a b : EvR) : Prop := a.pos < b.pos ∨ (a.pos = b.pos ∧ a.kind ≤ b.kind)

instance : DecidableRel evRLe := fun a b => by unfold evRLe; infer_instance

/-- The store-level `ends` list: positions are read from the store when the
list is built, references are kept. -/
def storeEnds (st : List Exon) (refs : List Nat) : List EvR :=
  refs.map (fun r => ⟨(stGet st r).start, 1, r⟩) ++
    refs.map (fun r => ⟨(stGet st r).stop, 0, r⟩)

/-- Store-level `active_exons` update: references are appended and removed
by identity, exactly as Python appends and removes object references. -/
def stepR (active : List Nat) (a : EvR) : Except PyError (List Nat) :=
  if a.kind = 1 then .ok (active ++ [a.ref])
  else if a.kind = 0 then
    if a.ref ∈ active then .ok (active.erase a.ref) else .error .valueNotInList
  else .ok active

/-- Store-level `reduce(lambda x,y: x&y, feats)`: each `&` allocates the
merged object as a fresh cell and returns its reference. -/
def storeReduce (st : List Exon) (acc : Nat) :
    List Nat → Except PyError (List Exon × Nat)
  | [] => .ok (st, acc)
  | r :: rs =>
    if (stGet st acc).chrom = (stGet st r).chrom then
      storeReduce (st ++ [combineU (stGet st acc) (stGet st r)]) st.length rs
    else .error .chromosomeMismatch

/-- Store-level `intersect_exons_list(active, multiple=False)`: the
references are deduplicated (reference equality *is* Python identity), a
lone feature is deep-copied into a fresh cell, several are reduced. -/
def storeIntersect (st : List Exon) (refs : List Nat) :
    Except PyError (List Exon × Nat) :=
  match pydedup refs with
  | [] => .error .emptyReduce
  | [r] => .ok (st ++ [stGet st r], st.length)
  | r :: rest => storeReduce st r rest

/-- Store-level main loop of `cobble`: after synthesising a piece, the
assignments `e.start = a[0]; e.end = b[0]` update the store at the piece's
(freshly allocated) reference. -/
def storeSweep (st : List Exon) (active : List Nat) :
    List EvR → Except PyError (List Exon × List Nat)
  | a :: b :: rest =>
    Except.bind (stepR active a) (fun active' =>
      if active' = [] then storeSweep st active' (b :: rest)
      else if a.pos = b.pos then storeSweep st active' (b :: rest)
      else
        Except.bind (storeIntersect st active') (fun pr =>
          Except.bind
            (storeSweep
              (pr.1.set pr.2 { stGet pr.1 pr.2 with start := a.pos, stop := b.pos })
              active' (b :: rest))
            (fun pr2 => .ok (pr2.1, pr.2 :: pr2.2))))
  | _ => .ok (st, [])

/-- Store-level `cobble(exons, multiple=False)`: build and sort the events,
then sweep; returns the final store and the pieces' references. -/
def storeCobble (st : List Exon) (refs : List Nat) :
    Except PyError (List Exon × List Nat) :=
  storeSweep st [] (List.insertionSort evRLe (storeEnds st refs))

/-- `st'` extends `st`: it is at least as long and agrees with it on every
cell of `st`. -/
def StExt (st st' : List Exon) : Prop :=
  st.length ≤ st'.length ∧ ∀ i < st.length, st'.getD i default = st.getD i default

theorem StExt_refl (st : List Exon) : StExt st st := ⟨le_refl _, fun _ _ => rfl⟩

theorem StExt_trans {st1 st2 st3 : List Exon} (h1 : StExt st1 st2)
    (h2 : StExt st2 st3) : StExt st1 st3 :=
  ⟨le_trans h1.1 h2.1, fun i hi => (h2.2 i (lt_of_lt_of_le hi h1.1)).trans (h1.2 i hi)⟩

theorem StExt_alloc (st : List Exon) (e : Exon) : StExt st (st ++ [e]) := by
  constructor
  · simp
  · intro i hi
    exact getD_append_lt st [e] i default hi

theorem StExt_set_of_ge {st st' : List Exon} (h : StExt st st') (r : Nat)
    (hr : st.length ≤ r) (e : Exon) : StExt st (st'.set r e) := by
  constructor
  · rw [List.length_set]
    exact h.1
  · intro i hi
    rw [getD_set_ne st' r i e default (by omega)]
    exact h.2 i hi

theorem storeReduce_spec (rs : List Nat) :
    ∀ st : List Exon, ∀ acc : Nat, ∀ st' : List Exon, ∀ r' : Nat,
      storeReduce st acc rs = .ok (st', r') →
      StExt st st' ∧ (rs = [] → st' = st ∧ r' = acc) ∧ (rs ≠ [] → st.length ≤ r') := by
  induction rs with
  | nil =>
    intro st acc st' r' h
    simp only [storeReduce] at h
    injection h with h1
    injection h1 with h2 h3
    subst h2
    subst h3
    exact ⟨StExt_refl st, fun _ => ⟨rfl, rfl⟩, fun hc => absurd rfl hc⟩
  | cons r rs ih =>
    intro st acc st' r' h
    simp only [storeReduce] at h
    by_cases hc : (stGet st acc).chrom = (stGet st r).chrom
    · rw [if_pos hc] at h
      obtain ⟨hext, hnil, hne⟩ :=
        ih (st ++ [combineU (stGet st acc) (stGet st r)]) st.length st' r' h
      refine ⟨StExt_trans (StExt_alloc st _) hext,
        fun hc2 => absurd hc2 (List.cons_ne_nil r rs), fun _ => ?_⟩
      by_cases hrs : rs = []
      · obtain ⟨-, hr⟩ := hnil hrs
        omega
      · have := hne hrs
        simp only [List.length_append, List.length_singleton] at this
        omega
    · rw [if_neg hc] at h
      exact nomatch h

theorem storeIntersect_spec (st : List Exon) (refs : List Nat)
    (st' : List Exon) (r' : Nat) (h : storeIntersect st refs = .ok (st', r')) :
    StExt st st' ∧ st.length ≤ r' := by
  unfold storeIntersect at h
  cases hd : pydedup refs with
  | nil =>
    rw [hd] at h
    exact nomatch h
  | cons r rest =>
    cases rest with
    | nil =>
      rw [hd] at h
      injection h with h1
      injection h1 with h2 h3
      subst h2
      subst h3
      exact ⟨StExt_alloc st _, le_refl _⟩
    | cons r2 rest2 =>
      rw [hd] at h
      obtain ⟨hext, -, hne⟩ := storeReduce_spec (r2 :: rest2) st r st' r' h
      exact ⟨hext, hne (by simp)⟩

theorem except_bind_ok {eps alpha beta : Type} (a : alpha)
    (f : alpha → Except eps beta) : Except.bind (Except.ok a) f = f a := rfl

theorem except_bind_error {eps alpha beta : Type} (e : eps)
    (f : alpha → Except eps beta) :
    Except.bind (Except.error e) f = Except.error e := rfl

theorem storeSweep_spec (evs : List EvR) :
    ∀ st : List Exon, ∀ active : List Nat, ∀ st' : List Exon, ∀ ps : List Nat,
      storeSweep st active evs = .ok (st', ps) → StExt st st' := by
  induction evs with
  | nil =>
    intro st active st' ps h
    simp only [storeSweep] at h
    injection h with h1
    injection h1 with h2 h3
    subst h2
    exact StExt_refl st
  | cons a tail ih =>
    cases tail with
    | nil =>
      intro st active st' ps h
      simp only [storeSweep] at h
      injection h with h1
      injection h1 with h2 h3
      subst h2
      exact StExt_refl st
    | cons b rest =>
      intro st active st' ps h
      simp only [storeSweep] at h
      cases hstep : stepR active a with
      | error err =>
        rw [hstep, except_bind_error] at h
        exact nomatch h
      | ok active' =>
        rw [hstep] at h
        simp only [except_bind_ok] at h
        by_cases h1 : active' = []
        · rw [if_pos h1] at h
          exact ih st active' st' ps h
        · rw [if_neg h1] at h
          by_cases h2 : a.pos = b.pos
          · rw [if_pos h2] at h
            exact ih st active' st' ps h
          · rw [if_neg h2] at h
            cases hint : storeIntersect st active' with
            | error err =>
              rw [hint, except_bind_error] at h
              exact nomatch h
            | ok pr =>
              rw [hint] at h
              simp only [except_bind_ok] at h
              obtain ⟨hext1, hr⟩ := storeIntersect_spec st active' pr.1 pr.2 (by
                rw [hint])
              cases hrec : storeSweep
                  (pr.1.set pr.2 { stGet pr.1 pr.2 with start := a.pos, stop := b.pos })
                  active' (b :: rest) with
              | error err =>
                rw [hrec, except_bind_error] at h
                exact nomatch h
              | ok pr2 =>
                rw [hrec] at h
                simp only [except_bind_ok] at h
                injection h with h5
                injection h5 with h6 h7
                subst h6
                have hext2 : StExt st (pr.1.set pr.2
                    { stGet pr.1 pr.2 with start := a.pos, stop := b.pos }) :=
                  StExt_set_of_ge hext1 pr.2 hr _
                have hext3 := ih _ active' pr2.1 pr2.2 (by rw [hrec])
                exact StExt_trans hext2 hext3

/-- C10: the store-level `cobble` never mutates its input cells: every cell
of the incoming store — in particular every input exon, with its `start`,
`end`, `length`, `transcripts`, `multiplicity` and identifier — is
unchanged in the final store, because every emitted piece is a deep copy
of a lone active feature or a freshly constructed merged object, and the
boundary assignments write only to those fresh cells. -/
theorem cobble_store_frame (st : List Exon) (refs : List Nat)
    (st' : List Exon) (pieces : List Nat)
    (h : storeCobble st refs = .ok (st', pieces)) :
    ∀ i < st.length, st'.getD i default = st.getD i default :=
  (storeSweep_spec (List.insertionSort evRLe (storeEnds st refs)) st [] st' pieces h).2

/-- Concrete two-exon store for the frame witness. -/
def c10st : List Exon :=
  [Exon.mkInit "E1" "G1" "Gn" "chr1" 0 100 "E1" 0 1 ["T1"] 0,
   Exon.mkInit "E2" "G1" "Gn" "chr1" 50 150 "E2" 0 1 ["T2"] 1]

/-- The final store of the witness run. -/
def c10res : List Exon :=
  match storeCobble c10st [0, 1] with
  | .ok (s, _) => s
  | .error _ => []

/-- The pieces' references of the witness run. -/
def c10ps : List Nat :=
  match storeCobble c10st [0, 1] with
  | .ok (_, ps) => ps
  | .error _ => []

/-- Witness for `cobble_store_frame` on the concrete store `c10st`. -/
theorem cobble_store_frame_witness :
    storeCobble c10st [0, 1] = .ok (c10res, c10ps) ∧
      ∀ i < c10st.length, c10res.getD i default = c10st.getD i default :=
  ⟨by decide, cobble_store_frame c10st [0, 1] c10res c10ps (by decide)⟩
